import Mathlib

/-!
Verification of the mold recipe-resolution engine against its specification.

The Rust sources are shallowly embedded: `expr.rs` (the boolean
environment-activation language), `lib.rs` (moldfile data model, variable
layering, include merging, dependency resolution) and `remote.rs` (remote
reference parsing/printing).  Rust `String` is embedded as Lean `String`,
`IndexMap`/`IndexSet` as association lists / insertion-ordered lists,
`BTreeMap` as association lists queried by first-match lookup (only lookup
results and insertion-ordered traversals are relied upon by the theorems),
and fallible functions return `Except String`.  Recursion that the Rust code
performs without a termination guarantee (dependency resolution, include
processing) is embedded with an explicit fuel parameter; fuel exhaustion is
the distinguished error "fuel".
-/

namespace MoldSpec

/-! ## Expression engine (src/expr.rs) -/

/-- Tokens of the expression language (`enum Token` in expr.rs). -/
inductive Token where
  | and
  | or
  | not
  | pal
  | par
  | wild
  | name (s : String)
deriving Repr, DecidableEq

/-- Expression AST (`enum Expr` in expr.rs). -/
inductive Expr where
  | and (x y : Expr)
  | or (x y : Expr)
  | not (x : Expr)
  | group (x : Expr)
  | atom (s : String)
  | wild
deriving Repr, DecidableEq

/-- `Expr::apply` from expr.rs: evaluate an expression against the list of
active environment names. -/
def Expr.apply : Expr → List String → Bool
  | .and x y, env => x.apply env && y.apply env
  | .or x y, env => x.apply env || y.apply env
  | .not x, env => !(x.apply env)
  | .group x, env => x.apply env
  | .atom s, env => env.contains s
  | .wild, _ => true

/-- Characters accepted inside a name by the lexer
(`'a'..='z' | 'A'..='Z' | '0'..='9' | '_' | '-'`). -/
def isNameChar (c : Char) : Bool :=
  ('a' ≤ c && c ≤ 'z') || ('A' ≤ c && c ≤ 'Z') || ('0' ≤ c && c ≤ '9') || c = '_' || c = '-'

theorem length_dropWhile_le (p : Char → Bool) :
    ∀ l : List Char, (l.dropWhile p).length ≤ l.length := by
  intro l
  induction l with
  | nil => simp [List.dropWhile]
  | cons c cs ih =>
    by_cases h : p c
    · simpa [List.dropWhile, h] using Nat.le_succ_of_le ih
    · simp [List.dropWhile, h]

/-- `lex` from expr.rs, fuel-indexed: every step consumes at least one
character, so `cs.length` fuel always suffices (`lexRun_fuel`) and the
fuel-free recursion equation `lex_cons` below recovers the Rust recursion
exactly.  A name token greedily consumes name characters (`lex_name`);
operators map to their tokens; whitespace and every other unrecognized
character is silently dropped. -/
def lexRun : Nat → List Char → List Token
  | 0, _ => []
  | _ + 1, [] => []
  | f + 1, c :: cs =>
    if isNameChar c then
      Token.name (String.mk (c :: cs.takeWhile isNameChar)) :: lexRun f (cs.dropWhile isNameChar)
    else if c = '+' then Token.and :: lexRun f cs
    else if c = '|' then Token.or :: lexRun f cs
    else if c = '*' then Token.wild :: lexRun f cs
    else if c = '?' then Token.wild :: lexRun f cs
    else if c = '~' then Token.not :: lexRun f cs
    else if c = '(' then Token.pal :: lexRun f cs
    else if c = ')' then Token.par :: lexRun f cs
    else lexRun f cs

/-- `lex` from expr.rs. -/
def lex (cs : List Char) : List Token := lexRun cs.length cs

theorem lexRun_fuel_eq : ∀ (f : Nat) (cs : List Char) (g : Nat),
    cs.length ≤ f → cs.length ≤ g → lexRun f cs = lexRun g cs := by
  intro f
  induction f with
  | zero =>
    intro cs g hf _
    have : cs = [] := List.eq_nil_of_length_eq_zero (Nat.le_zero.mp hf)
    subst this
    cases g <;> rfl
  | succ f ih =>
    intro cs g hf hg
    cases cs with
    | nil => cases g <;> rfl
    | cons c cs =>
      obtain ⟨g2, rfl⟩ : ∃ g2, g = g2 + 1 := ⟨g - 1, by simp at hg; omega⟩
      simp only [List.length_cons] at hf hg
      have hd : (cs.dropWhile isNameChar).length ≤ cs.length := length_dropWhile_le _ _
      have hrec : lexRun f cs = lexRun g2 cs := ih cs g2 (by omega) (by omega)
      have hrecd : lexRun f (cs.dropWhile isNameChar) = lexRun g2 (cs.dropWhile isNameChar) :=
        ih (cs.dropWhile isNameChar) g2 (by omega) (by omega)
      show lexRun (f + 1) (c :: cs) = lexRun (g2 + 1) (c :: cs)
      unfold lexRun
      rw [hrec, hrecd]

theorem lexRun_fuel {f : Nat} {cs : List Char} (h : cs.length ≤ f) :
    lexRun f cs = lex cs :=
  lexRun_fuel_eq f cs cs.length h le_rfl

/-- The Rust recursion equation for `lex` on a nonempty character list. -/
theorem lex_cons (c : Char) (cs : List Char) :
    lex (c :: cs) =
      (if isNameChar c then
        Token.name (String.mk (c :: cs.takeWhile isNameChar)) :: lex (cs.dropWhile isNameChar)
      else if c = '+' then Token.and :: lex cs
      else if c = '|' then Token.or :: lex cs
      else if c = '*' then Token.wild :: lex cs
      else if c = '?' then Token.wild :: lex cs
      else if c = '~' then Token.not :: lex cs
      else if c = '(' then Token.pal :: lex cs
      else if c = ')' then Token.par :: lex cs
      else lex cs) := by
  show lexRun (cs.length + 1) (c :: cs) = _
  unfold lexRun
  rw [lexRun_fuel (le_refl cs.length),
    lexRun_fuel (length_dropWhile_le isNameChar cs)]

mutual

/-- `parse_expr` from expr.rs (delegates to `parse_or`).  The extra `Nat`
is fuel: the Rust recursion always consumes tokens, so any fuel of at least
`5 * tokens + 5` behaves identically (see `parseExpr_fuel`). -/
def parseExpr : Nat → List Token → Except String (Expr × List Token)
  | 0, _ => .error "fuel"
  | f + 1, ts => parseOr f ts

/-- `parse_or` from expr.rs: parse an `and`-level expression, and if the next
token is `|`, consume it and parse the rest with `parse_expr`. -/
def parseOr : Nat → List Token → Except String (Expr × List Token)
  | 0, _ => .error "fuel"
  | f + 1, ts => do
    let (lhs, rest) ← parseAnd f ts
    match rest with
    | Token.or :: rest2 => do
      let (rhs, rest3) ← parseExpr f rest2
      pure (Expr.or lhs rhs, rest3)
    | _ => pure (lhs, rest)

/-- `parse_and` from expr.rs: parse a `not`-level expression, and if the next
token is `+`, consume it and parse the rest with `parse_expr` (the full
grammar, not just the `and` level). -/
def parseAnd : Nat → List Token → Except String (Expr × List Token)
  | 0, _ => .error "fuel"
  | f + 1, ts => do
    let (lhs, rest) ← parseNot f ts
    match rest with
    | Token.and :: rest2 => do
      let (rhs, rest3) ← parseExpr f rest2
      pure (Expr.and lhs rhs, rest3)
    | _ => pure (lhs, rest)

/-- `parse_not` from expr.rs: `~` binds to the next atom. -/
def parseNot : Nat → List Token → Except String (Expr × List Token)
  | 0, _ => .error "fuel"
  | f + 1, ts =>
    match ts with
    | Token.not :: rest => do
      let (inner, rest2) ← parseAtom f rest
      pure (Expr.not inner, rest2)
    | _ => parseAtom f ts

/-- `parse_atom` from expr.rs: a name, a wildcard, or a parenthesized
expression; anything else (or end of input) is a parse error. -/
def parseAtom : Nat → List Token → Except String (Expr × List Token)
  | 0, _ => .error "fuel"
  | f + 1, ts =>
    match ts with
    | Token.pal :: rest => do
      let (inner, rest2) ← parseExpr f rest
      match rest2 with
      | Token.par :: rest3 => pure (Expr.group inner, rest3)
      | _ => .error "Parse error; expected close parenthesis"
    | Token.name x :: rest => pure (Expr.atom x, rest)
    | Token.wild :: rest => pure (Expr.wild, rest)
    | _ :: _ => .error "Parse error; expected name or open parenthesis"
    | [] => .error "Parse error; unexpected end of expression"

end

/-- Fuel sufficient for `parseExpr` on a given token list. -/
def exprFuel (ts : List Token) : Nat := 5 * ts.length + 5

/-- `parse` from expr.rs: parse a complete expression and fail if tokens
remain afterwards. -/
def parse (ts : List Token) : Except String Expr :=
  match parseExpr (exprFuel ts) ts with
  | .ok (e, []) => .ok e
  | .ok (_, _ :: _) => .error "Parse error; expected end of expression"
  | .error msg => .error msg

/-- `compile` from expr.rs: lex then parse. -/
def compile (text : String) : Except String Expr :=
  parse (lex text.data)

/-! ## Ordered maps (lib.rs type aliases)

`VarMap = IndexMap<String, String>` and `EnvMap = IndexMap<String, VarMap>`
are insertion-ordered maps: `insert` updates the value in place when the key
exists and appends otherwise; iteration follows insertion order.  They are
embedded as association lists with exactly those operations; lookup is
first-match (keys stay unique under `imInsert`/`orInsert`). -/

/-- `IndexMap::insert`: update in place if present, else append. -/
def imInsert {β : Type} (m : List (String × β)) (k : String) (v : β) :
    List (String × β) :=
  if m.any (fun p => p.1 == k) then
    m.map (fun p => if p.1 == k then (k, v) else p)
  else m ++ [(k, v)]

/-- `IndexMap::extend`: insert every pair in order. -/
def imExtend {β : Type} (m l : List (String × β)) : List (String × β) :=
  l.foldl (fun acc p => imInsert acc p.1 p.2) m

/-- `BTreeMap::entry(k).or_insert(v)`: keep an existing entry, else insert. -/
def orInsert {β : Type} (m : List (String × β)) (k : String) (v : β) :
    List (String × β) :=
  match m.lookup k with
  | some _ => m
  | none => m ++ [(k, v)]

abbrev VarMap := List (String × String)
abbrev EnvMap := List (String × VarMap)

/-! ## Moldfile data model (lib.rs) -/

/-- `struct Include` from lib.rs: a remote reference (url, git ref, optional
moldfile path).  Paths are embedded as strings. -/
structure Include where
  url : String
  ref_ : String
  file : Option String
deriving Repr, DecidableEq

/-- `struct Runtime` from lib.rs. -/
structure Runtime where
  command : List String
  extensions : List String
deriving Repr, DecidableEq

/-- `struct RecipeBase` from lib.rs.  The Rust field `variables` is named
`vars` here (`variables` is reserved in Lean). -/
structure RecipeBase where
  help : String
  vars : VarMap
  environments : EnvMap
  work_dir : Option String
  search_dir : Option String
deriving Repr, DecidableEq

/-- `enum Recipe` from lib.rs: Module, Script, File, Command. -/
inductive Recipe where
  | module (base : RecipeBase) (url : String) (ref_ : String) (file : Option String)
  | script (base : RecipeBase) (deps : List String) (runtime : String) (body : String)
  | file (base : RecipeBase) (deps : List String) (runtime : String) (file : Option String)
  | command (base : RecipeBase) (deps : List String) (args : List String)
deriving Repr, DecidableEq

/-- `struct Moldfile` from lib.rs.  `RecipeMap`/`RuntimeMap` are `BTreeMap`s;
they are embedded as association lists queried by first-match lookup.  The
Rust field `variables` is named `vars` here (`variables` is reserved in
Lean). -/
structure Moldfile where
  version : Option String
  recipe_dir : String
  includes : List Include
  recipes : List (String × Recipe)
  runtimes : List (String × Runtime)
  vars : VarMap
  environments : EnvMap
deriving Repr, DecidableEq

/-- `struct Mold` from lib.rs: an opened moldfile with its derived paths. -/
structure Mold where
  file : String
  dir : String
  root_dir : String
  clone_dir : String
  script_dir : String
  envs : List String
  data : Moldfile
deriving Repr, DecidableEq

/-- `Recipe::deps` from lib.rs (a Module has no deps). -/
def Recipe.deps : Recipe → List String
  | .module _ _ _ _ => []
  | .script _ deps _ _ => deps
  | .file _ deps _ _ => deps
  | .command _ deps _ => deps

/-- The `RecipeBase` embedded in each variant. -/
def Recipe.base : Recipe → RecipeBase
  | .module b _ _ _ => b
  | .script b _ _ _ => b
  | .file b _ _ _ => b
  | .command b _ _ => b

/-- `Recipe::vars` from lib.rs. -/
def Recipe.vars (r : Recipe) : VarMap := r.base.vars

/-- `Recipe::env_maps` from lib.rs. -/
def Recipe.env_maps (r : Recipe) : EnvMap := r.base.environments

/-- `Recipe::work_dir` from lib.rs. -/
def Recipe.work_dir (r : Recipe) : Option String := r.base.work_dir

/-- `Recipe::search_dir` from lib.rs. -/
def Recipe.search_dir (r : Recipe) : Option String := r.base.search_dir

/-- `Recipe::set_search_dir` from lib.rs. -/
def Recipe.set_search_dir (r : Recipe) (sd : Option String) : Recipe :=
  match r with
  | .module b u g fl => .module { b with search_dir := sd } u g fl
  | .script b d rt s => .script { b with search_dir := sd } d rt s
  | .file b d rt fl => .file { b with search_dir := sd } d rt fl
  | .command b d a => .command { b with search_dir := sd } d a

/-! ## Environment activation and variable layering (lib.rs) -/

/-- `active_envs` from lib.rs: each key of the environment map is compiled as
a test expression and applied to the active environment list; keys whose test
holds are collected in declaration order.  A compile failure logs a warning
(a side effect outside the embedding) and the entry is skipped. -/
def activeEnvs (envMap : EnvMap) (envs : List String) : List String :=
  envMap.foldl (fun result p =>
    match compile p.1 with
    | .ok ex => if ex.apply envs then result ++ [p.1] else result
    | .error _ => result) []

/-- The overlay loop shared by `Mold::env_vars` and `Recipe::env_vars`:
`for env_name in active { if let Some(env) = map.get(env_name) {
vars.extend(env) } }`. -/
def applyActive (envMap : EnvMap) (active : List String) (vars : VarMap) : VarMap :=
  active.foldl (fun acc name =>
    match envMap.lookup name with
    | some env => imExtend acc env
    | none => acc) vars

/-- `Mold::env_vars` from lib.rs: clone the moldfile variables, insert the
five reserved mold variables, then overlay each active environment in
declaration order. -/
def Mold.env_vars (m : Mold) : VarMap :=
  let active := activeEnvs m.data.environments m.envs
  let vars := m.data.vars
  let vars := imInsert vars "MOLD_ROOT" m.root_dir
  let vars := imInsert vars "MOLD_FILE" m.file
  let vars := imInsert vars "MOLD_DIR" m.dir
  let vars := imInsert vars "MOLD_CLONE_DIR" m.clone_dir
  let vars := imInsert vars "MOLD_SCRIPT_DIR" m.script_dir
  applyActive m.data.environments active vars

/-- `Recipe::env_vars` from lib.rs: the recipe's own variables overlaid with
its active environments. -/
def Recipe.env_vars (r : Recipe) (envs : List String) : VarMap :=
  applyActive r.env_maps (activeEnvs r.env_maps envs) r.vars

/-! ## Include merging and module opening (lib.rs) -/

/-- `Mold::adopt` from lib.rs: share the parent's clone dir, script dir and
active environment list. -/
def Mold.adopt (m : Mold) (parent : Mold) : Mold :=
  { m with clone_dir := parent.clone_dir, script_dir := parent.script_dir,
           envs := parent.envs }

/-- `Moldfile::merge_absent` from lib.rs: keep existing runtimes/recipes
(parent wins), insert absent ones; each incoming recipe first has its
`search_dir` set to the merged mold's directory. -/
def Moldfile.merge_absent (d : Moldfile) (other : Mold) : Moldfile :=
  let runtimes := other.data.runtimes.foldl (fun acc p => orInsert acc p.1 p.2) d.runtimes
  let recipes := other.data.recipes.foldl
    (fun acc p => orInsert acc p.1 (p.2.set_search_dir (some other.dir))) d.recipes
  { d with runtimes := runtimes, recipes := recipes }

/-- Modelled from the spec: `util::hash_url_ref` (the `util` module is not
among the given sources).  The spec states that remote identity is a
deterministic pure hash of (url, ref) and lib.rs documents the folder-name
format as `hash(url@ref)`; it is embedded as the deterministic injective
function `url ++ "@" ++ ref`. -/
def hash_url_ref (url ref_ : String) : String := url ++ "@" ++ ref_

/-- External collaborators of the core (filesystem, YAML parser, version
check): a `World` maps the arguments of `Mold::discover` — a directory and an
optional file name — to the opened `Mold`, or `none` when discovery fails. -/
def World := String → Option String → Option Mold

/-- `Mold::discover` as seen by the core, through a `World`. -/
def discover (w : World) (dir : String) (file : Option String) : Except String Mold :=
  match w dir file with
  | some m => .ok m
  | none => .error "discover"

/-- `Mold::process_includes` from lib.rs: discover and adopt each include,
recursively process its own includes, then merge every result into `self`
with `merge_absent` in declaration order.  Fuel bounds the recursion the
Rust code performs unboundedly. -/
def processIncludes (w : World) : Nat → Mold → Except String Mold
  | 0, _ => .error "fuel"
  | f + 1, self => do
    let merges ← self.data.includes.mapM (fun inc => do
      let m ← discover w (self.clone_dir ++ "/" ++ hash_url_ref inc.url inc.ref_) inc.file
      processIncludes w f (m.adopt self))
    pure { self with data := merges.foldl Moldfile.merge_absent self.data }

/-- `Mold::find_recipe` from lib.rs; a missing name is the RecipeNotFound
error (Rust message: `Couldn't locate target '{name}'`). -/
def Mold.find_recipe (m : Mold) (name : String) : Except String Recipe :=
  match m.data.recipes.lookup name with
  | some r => .ok r
  | none => .error ("RecipeNotFound: " ++ name)

/-- `Mold::find_module` from lib.rs: the named recipe must be a Module. -/
def Mold.find_module (m : Mold) (name : String) :
    Except String (String × String × Option String) := do
  match ← m.find_recipe name with
  | .module _ url ref_ fl => pure (url, ref_, fl)
  | .command _ _ _ => .error "Requested recipe is a command"
  | .file _ _ _ _ => .error "Requested recipe is a file"
  | .script _ _ _ _ => .error "Requested recipe is a script"

/-- `Mold::open_module` from lib.rs: discover the module's clone folder,
adopt it, then process its includes. -/
def openModule (w : World) (f : Nat) (self : Mold) (name : String) :
    Except String Mold := do
  let (url, ref_, fileOpt) ← self.find_module name
  let m ← discover w (self.clone_dir ++ "/" ++ hash_url_ref url ref_) fileOpt
  processIncludes w f (m.adopt self)

/-! ## Dependency resolution (lib.rs) -/

/-- `TaskSet = IndexSet<String>`: an insertion-ordered deduplicating set,
embedded as a duplicate-free list in insertion order. -/
abbrev TaskSet := List String

/-- `IndexSet::insert`: append if absent. -/
def tsInsert (l : TaskSet) (x : String) : TaskSet :=
  if x ∈ l then l else l ++ [x]

/-- `IndexSet::extend`: insert each element in order. -/
def tsExtend (l : TaskSet) (xs : List String) : TaskSet :=
  xs.foldl tsInsert l

/-- `collect()` of an iterator into an `IndexSet`. -/
def tsOf (xs : List String) : TaskSet := tsExtend [] xs

/-- `target.splitn(2, '/')` on a name containing a slash: the module name
before the first `/` and the remainder after it. -/
def splitSlash (s : String) : Option (String × String) :=
  if s.data.contains '/' then
    some (String.mk (s.data.takeWhile (· != '/')),
          String.mk ((s.data.dropWhile (· != '/')).tail))
  else none

mutual

/-- `Mold::find_all_dependencies` from lib.rs: for each requested name in
order, extend the accumulating set with the name's dependencies, then insert
the name itself. -/
def findAllDeps (w : World) : Nat → Mold → TaskSet → Except String TaskSet
  | 0, _, _ => .error "fuel"
  | f + 1, m, targets =>
    targets.foldlM (fun acc t => do
      let d ← findTaskDeps w f m t
      pure (tsInsert (tsExtend acc d) t)) []

/-- `Mold::find_task_dependencies` from lib.rs: a namespace-qualified name
`module/recipe` is resolved inside the opened module and every resulting
dependency is re-qualified with the module prefix; a plain name resolves its
recipe's `deps` list recursively. -/
def findTaskDeps (w : World) : Nat → Mold → String → Except String TaskSet
  | 0, _, _ => .error "fuel"
  | f + 1, m, target =>
    match splitSlash target with
    | some (moduleName, recipeName) => do
      let module ← openModule w f m moduleName
      let deps ← findTaskDeps w f module recipeName
      let full ← findAllDeps w f module deps
      pure (tsOf (full.map (fun x => moduleName ++ "/" ++ x)))
    | none => do
      let recipe ← m.find_recipe target
      findAllDeps w f m (tsOf recipe.deps)

end

/-! ## Task variable layering (lib.rs `Mold::find_task`) -/

/-- The variable-map portion of `Mold::find_task` (lib.rs, top-level branch
for a slash-free target): extend the caller-provided variables with the
recipe's activated variables, select search/work directories, then insert
the three task-level reserved variables.  Every recipe variant receives
exactly this map.  `PathBuf::join` is embedded as `/`-separated
concatenation. -/
def Mold.find_task_vars (m : Mold) (target_name : String) (prev_vars : VarMap) :
    Except String (VarMap × String × String) := do
  let recipe ← m.find_recipe target_name
  let vars := imExtend prev_vars (recipe.env_vars m.envs)
  let search_dir := (recipe.search_dir).getD m.dir
  let work_dir :=
    match recipe.work_dir with
    | none => m.root_dir
    | some val => m.root_dir ++ "/" ++ val
  let vars := imInsert vars "MOLD_MODULE_ROOT" m.root_dir
  let vars := imInsert vars "MOLD_SEARCH_DIR" search_dir
  let vars := imInsert vars "MOLD_WORK_DIR" work_dir
  pure (vars, search_dir, work_dir)

/-! ## Remote references (src/remote.rs and `Include::parse` in lib.rs) -/

/-- `struct Remote` from remote.rs. -/
structure Remote where
  url : String
  ref_ : String
  file : Option String
deriving Repr, DecidableEq

/-- `s.find(c)` followed by `s.split_at(idx)`: the part before the first
occurrence of `c` and the part from it on, or `none` when `c` is absent. -/
def splitAtFirst (c : Char) (cs : List Char) : Option (List Char × List Char) :=
  if cs.contains c then some (cs.takeWhile (· != c), cs.dropWhile (· != c))
  else none

/-- The `(ref_, file)` computation on the `#`-fragment, written identically
in `Remote::parse` (remote.rs) and `Include::parse` (lib.rs): split the
fragment at its first `/`; the file part drops every leading `/`
(`trim_start_matches`), and an empty ref part defaults to `"master"`
(`default_git_ref()` in lib.rs, the literal in remote.rs — the same
string). -/
def fragRefFile (frag : List Char) : String × Option String :=
  match splitAtFirst '/' frag with
  | none => (String.mk frag, none)
  | some (refPart, fileRest) =>
    let fileCs := fileRest.dropWhile (· == '/')
    (if refPart = [] then "master" else String.mk refPart, some (String.mk fileCs))

/-- `Remote::parse` from remote.rs: `url[#[ref][/file]]`, with ref defaulting
to "master".  `trim_start_matches('#')` drops every leading `#`. -/
def Remote.parse (s : String) : Remote :=
  match splitAtFirst '#' s.data with
  | none => { url := s, ref_ := "master", file := none }
  | some (url, rest) =>
    let rf := fragRefFile (rest.dropWhile (· == '#'))
    { url := String.mk url, ref_ := rf.1, file := rf.2 }

/-- `ToString for Remote` from remote.rs. -/
def Remote.to_string (r : Remote) : String :=
  match r.file with
  | some f => r.url ++ "#" ++ r.ref_ ++ "/" ++ f
  | none => r.url ++ "#" ++ r.ref_

/-- `FromStr for Remote` from remote.rs: always `Ok(parse(s))`. -/
def Remote.from_str (s : String) : Except String Remote := .ok (Remote.parse s)

/-- `default_git_ref` from lib.rs. -/
def default_git_ref : String := "master"

/-- `Include::parse` from lib.rs: the same `url[#[ref][/file]]` grammar,
with `default_git_ref()` (`= "master"`) as the default. -/
def Include.parse (s : String) : Include :=
  match splitAtFirst '#' s.data with
  | none => { url := s, ref_ := default_git_ref, file := none }
  | some (url, rest) =>
    let rf := fragRefFile (rest.dropWhile (· == '#'))
    { url := String.mk url, ref_ := rf.1, file := rf.2 }

/-- `FromStr for Include` from lib.rs: always `Ok(parse(s))`. -/
def Include.from_str (s : String) : Except String Include := .ok (Include.parse s)

/-! ## Lemmas about the ordered-map operations -/

theorem lookup_cons {β : Type} {k k1 : String} {v : β} {l : List (String × β)} :
    ((k1, v) :: l).lookup k = if k = k1 then some v else l.lookup k := by
  by_cases h : k = k1 <;> simp [List.lookup, h, beq_iff_eq, BEq.beq]

theorem lookup_append {β : Type} {l1 l2 : List (String × β)} {k : String} :
    (l1 ++ l2).lookup k = (l1.lookup k <|> l2.lookup k) := by
  induction l1 with
  | nil => simp [List.lookup]
  | cons p l ih =>
    obtain ⟨k1, v⟩ := p
    by_cases h : k = k1 <;> simp [lookup_cons, h, ih]

theorem lookup_eq_none_of_keys {β : Type} {l : List (String × β)} {k : String}
    (h : ∀ p ∈ l, p.1 ≠ k) : l.lookup k = none := by
  induction l with
  | nil => simp [List.lookup]
  | cons p l ih =>
    obtain ⟨k1, v⟩ := p
    have h1 : k1 ≠ k := h (k1, v) (by simp)
    rw [lookup_cons, if_neg (Ne.symm h1)]
    exact ih fun q hq => h q (by simp [hq])

theorem lookup_map_update_ne {β : Type} {l : List (String × β)} {k k2 : String} {v : β}
    (h : k ≠ k2) :
    (l.map (fun p => if p.1 = k then (k, v) else p)).lookup k2 = l.lookup k2 := by
  induction l with
  | nil => simp
  | cons p l ih =>
    obtain ⟨k1, w⟩ := p
    by_cases h1 : k1 = k
    · subst h1
      simp only [List.map_cons, eq_self_iff_true, if_true]
      rw [lookup_cons, lookup_cons, if_neg (Ne.symm h), if_neg (Ne.symm h)]
      exact ih
    · simp only [List.map_cons]
      rw [show (if (k1, w).1 = k then (k, v) else ((k1, w))) = (k1, w) from
        if_neg h1]
      rw [lookup_cons, lookup_cons]
      by_cases h2 : k2 = k1
      · simp [h2]
      · rw [if_neg h2, if_neg h2, ih]

theorem lookup_map_update_self {β : Type} {l : List (String × β)} {k : String} {v : β}
    (h : l.any (fun p => p.1 == k)) :
    (l.map (fun p => if p.1 = k then (k, v) else p)).lookup k = some v := by
  induction l with
  | nil => simp at h
  | cons p l ih =>
    obtain ⟨k1, w⟩ := p
    by_cases h1 : k1 = k
    · subst h1
      simp only [List.map_cons, eq_self_iff_true, if_true]
      rw [lookup_cons, if_pos rfl]
    · simp only [List.map_cons]
      rw [show (if (k1, w).1 = k then (k, v) else ((k1, w))) = (k1, w) from
        if_neg h1]
      rw [lookup_cons, if_neg fun hc => h1 (by rw [hc])]
      refine ih ?_
      simp only [List.any_cons, Bool.or_eq_true] at h
      rcases h with h | h
      · exact absurd (by simpa using h) h1
      · exact h

theorem lookup_imInsert {β : Type} {m : List (String × β)} {k k2 : String} {v : β} :
    (imInsert m k v).lookup k2 = if k = k2 then some v else m.lookup k2 := by
  unfold imInsert
  by_cases hany : m.any (fun p => p.1 == k)
  · rw [if_pos hany]
    have hmap : (m.map (fun p => if p.1 == k then (k, v) else p)) =
        (m.map (fun p => if p.1 = k then (k, v) else p)) := by
      refine List.map_congr_left fun p _ => ?_
      by_cases hp : p.1 = k <;> simp [hp]
    rw [hmap]
    by_cases hk : k = k2
    · subst hk
      simp [lookup_map_update_self hany]
    · simp [hk, lookup_map_update_ne hk]
  · rw [if_neg hany]
    have hnone : m.lookup k = none := by
      refine lookup_eq_none_of_keys ?_
      intro p hp hpk
      exact hany (List.any_eq_true.mpr ⟨p, hp, by simp [hpk]⟩)
    rw [lookup_append]
    by_cases hk : k = k2
    · subst hk
      simp [hnone, lookup_cons]
    · rw [lookup_cons]
      simp only [List.lookup]
      rw [if_neg (Ne.symm hk), if_neg hk]
      cases h2 : m.lookup k2 <;> simp [Option.orElse]

theorem lookup_imExtend_not_mem {β : Type} {l : List (String × β)} {k : String} :
    ∀ {m : List (String × β)}, (∀ p ∈ l, p.1 ≠ k) →
      (imExtend m l).lookup k = m.lookup k := by
  induction l with
  | nil => intro m _; rfl
  | cons p l ih =>
    intro m h
    have hp : p.1 ≠ k := h p (by simp)
    calc (imExtend m (p :: l)).lookup k
        = (imExtend (imInsert m p.1 p.2) l).lookup k := rfl
      _ = (imInsert m p.1 p.2).lookup k := ih fun q hq => h q (by simp [hq])
      _ = m.lookup k := by rw [lookup_imInsert, if_neg hp]

theorem lookup_orInsert {β : Type} {m : List (String × β)} {k k2 : String} {v : β} :
    (orInsert m k v).lookup k2 =
      (m.lookup k2 <|> if k = k2 then some v else none) := by
  unfold orInsert
  cases h : m.lookup k with
  | some w =>
    by_cases hk : k = k2
    · subst hk
      simp [h, Option.orElse]
    · cases h2 : m.lookup k2 <;> simp [hk, Option.orElse]
  | none =>
    rw [lookup_append]
    by_cases hk : k = k2
    · subst hk
      rw [h, lookup_cons, if_pos rfl]
      simp [Option.orElse]
    · rw [lookup_cons]
      simp only [List.lookup]
      rw [if_neg (Ne.symm hk), if_neg hk]

theorem lookup_foldl_orInsert {β : Type} (g : β → β) :
    ∀ (l acc : List (String × β)) (k : String),
      (l.foldl (fun a p => orInsert a p.1 (g p.2)) acc).lookup k =
        (acc.lookup k <|> (l.lookup k).map g) := by
  intro l
  induction l with
  | nil =>
    intro acc k
    cases h : acc.lookup k <;> simp [Option.orElse, List.lookup, h]
  | cons p l ih =>
    intro acc k
    obtain ⟨k1, v⟩ := p
    rw [List.foldl_cons, ih, lookup_orInsert, lookup_cons]
    by_cases h1 : k1 = k
    · subst h1
      cases h : acc.lookup k1 <;> simp [Option.orElse]
    · cases h : acc.lookup k <;> simp [Option.orElse, Ne.symm h1, h1]

/-! ## Lemmas: merging (parent-wins and include processing) -/

theorem exbind_ok {α β : Type} {x : Except String α} {f : α → Except String β} {r : β} :
    (x >>= f) = .ok r ↔ ∃ a, x = .ok a ∧ f a = .ok r := by
  cases x <;> simp [Bind.bind, Except.bind]

/-- Lookup in the merged recipe map: the parent's binding if present, else
the incoming recipe with its `search_dir` pointed at the child's dir. -/
theorem merge_absent_recipes_lookup (d : Moldfile) (other : Mold) (k : String) :
    (d.merge_absent other).recipes.lookup k =
      (d.recipes.lookup k <|>
        (other.data.recipes.lookup k).map
          (fun r => r.set_search_dir (some other.dir))) := by
  unfold Moldfile.merge_absent
  exact lookup_foldl_orInsert (fun r => r.set_search_dir (some other.dir))
    other.data.recipes d.recipes k

/-- Lookup in the merged runtime map: parent's binding if present, else the
incoming one. -/
theorem merge_absent_runtimes_lookup (d : Moldfile) (other : Mold) (k : String) :
    (d.merge_absent other).runtimes.lookup k =
      (d.runtimes.lookup k <|> other.data.runtimes.lookup k) := by
  unfold Moldfile.merge_absent
  have h := lookup_foldl_orInsert (fun r : Runtime => r)
    other.data.runtimes d.runtimes k
  simpa using h

theorem foldl_merge_absent_preserves {merges : List Mold} :
    ∀ {d : Moldfile} {k : String} {r : Recipe},
      d.recipes.lookup k = some r →
      (merges.foldl Moldfile.merge_absent d).recipes.lookup k = some r := by
  induction merges with
  | nil => intro d k r h; simpa using h
  | cons mg merges ih =>
    intro d k r h
    refine ih ?_
    rw [merge_absent_recipes_lookup, h]
    rfl

theorem foldl_merge_absent_preserves_runtime {merges : List Mold} :
    ∀ {d : Moldfile} {k : String} {rt : Runtime},
      d.runtimes.lookup k = some rt →
      (merges.foldl Moldfile.merge_absent d).runtimes.lookup k = some rt := by
  induction merges with
  | nil => intro d k rt h; simpa using h
  | cons mg merges ih =>
    intro d k rt h
    refine ih ?_
    rw [merge_absent_runtimes_lookup, h]
    rfl

/-- `process_includes` keeps every recipe and runtime the parent already
declares. -/
theorem processIncludes_preserves {w : World} {f : Nat} {m m2 : Mold} :
    processIncludes w f m = .ok m2 →
      (∀ k r, m.data.recipes.lookup k = some r → m2.data.recipes.lookup k = some r) ∧
      (∀ k rt, m.data.runtimes.lookup k = some rt → m2.data.runtimes.lookup k = some rt) := by
  cases f with
  | zero => intro h; simp [processIncludes] at h
  | succ f =>
    intro h
    rw [processIncludes] at h
    rw [exbind_ok] at h
    obtain ⟨merges, _, hpure⟩ := h
    have hm2 : m2 = { m with data := merges.foldl Moldfile.merge_absent m.data } := by
      cases hpure
      rfl
    subst hm2
    exact ⟨fun k r h => foldl_merge_absent_preserves h,
           fun k rt h => foldl_merge_absent_preserves_runtime h⟩

/-! ## Lemmas: variable layering -/

/-- If no active environment overlay binds `k`, the overlay loop leaves
`k`'s binding untouched. -/
theorem applyActive_lookup_frozen {em : EnvMap} {k : String} :
    ∀ {active : List String} {vars : VarMap},
      (∀ name ∈ active, ∀ env, em.lookup name = some env → ∀ p ∈ env, p.1 ≠ k) →
      (applyActive em active vars).lookup k = vars.lookup k := by
  intro active
  induction active with
  | nil => intro vars _; rfl
  | cons name active ih =>
    intro vars h
    have hstep : (applyActive em (name :: active) vars) =
        (applyActive em active
          (match em.lookup name with
           | some env => imExtend vars env
           | none => vars)) := rfl
    rw [hstep]
    cases henv : em.lookup name with
    | none =>
      simp only [henv]
      exact ih fun n hn env he p hp => h n (by simp [hn]) env he p hp
    | some env =>
      simp only [henv]
      rw [ih fun n hn env2 he p hp => h n (by simp [hn]) env2 he p hp]
      exact lookup_imExtend_not_mem fun p hp =>
        h name (by simp) env henv p hp

/-- Every name in `active_envs` compiled successfully. -/
theorem mem_activeEnvs_ok {em : EnvMap} {envs : List String} {name : String} :
    name ∈ activeEnvs em envs → ∃ ex, compile name = .ok ex := by
  unfold activeEnvs
  suffices h : ∀ (l : EnvMap) (acc : List String),
      (∀ n ∈ acc, ∃ ex, compile n = .ok ex) →
      name ∈ l.foldl (fun result p =>
        match compile p.1 with
        | .ok ex => if ex.apply envs then result ++ [p.1] else result
        | .error _ => result) acc → ∃ ex, compile name = .ok ex by
    intro hm
    exact h em [] (by simp) hm
  intro l
  induction l with
  | nil => intro acc hacc hm; exact hacc name hm
  | cons p l ih =>
    intro acc hacc hm
    rw [List.foldl_cons] at hm
    cases hc : compile p.1 with
    | ok ex =>
      simp only [hc] at hm
      by_cases ha : ex.apply envs = true
      · rw [if_pos ha] at hm
        refine ih _ ?_ hm
        intro n hn
        rcases List.mem_append.mp hn with hn | hn
        · exact hacc n hn
        · simp only [List.mem_singleton] at hn
          exact hn ▸ ⟨ex, hc⟩
      · rw [if_neg ha] at hm
        exact ih _ hacc hm
    | error e =>
      simp only [hc] at hm
      exact ih _ hacc hm

/-- Entries whose key fails to compile contribute nothing to `active_envs`:
removing them leaves the active list unchanged. -/
theorem activeEnvs_filter_malformed {bad e : String} (hbad : compile bad = .error e) :
    ∀ (em : EnvMap) (envs : List String),
      activeEnvs (em.filter (fun p => p.1 != bad)) envs = activeEnvs em envs := by
  intro em envs
  unfold activeEnvs
  suffices h : ∀ (l : EnvMap) (acc : List String),
      (l.filter (fun p => p.1 != bad)).foldl (fun result p =>
        match compile p.1 with
        | .ok ex => if ex.apply envs then result ++ [p.1] else result
        | .error _ => result) acc =
      l.foldl (fun result p =>
        match compile p.1 with
        | .ok ex => if ex.apply envs then result ++ [p.1] else result
        | .error _ => result) acc from h em []
  intro l
  induction l with
  | nil => intro acc; rfl
  | cons p l ih =>
    intro acc
    by_cases hp : p.1 = bad
    · have hfilter : (p :: l).filter (fun q => q.1 != bad) =
          l.filter (fun q => q.1 != bad) := by
        simp [List.filter, hp]
      rw [hfilter, List.foldl_cons, hp, hbad]
      exact ih acc
    · have hb : (p.1 != bad) = true := by simp [hp]
      have hfilter : (p :: l).filter (fun q => q.1 != bad) =
          p :: l.filter (fun q => q.1 != bad) := by
        simp [List.filter, hb]
      rw [hfilter, List.foldl_cons, List.foldl_cons, ih]

theorem lookup_filter_ne {β : Type} {l : List (String × β)} {k bad : String}
    (h : k ≠ bad) :
    (l.filter (fun p => p.1 != bad)).lookup k = l.lookup k := by
  induction l with
  | nil => rfl
  | cons p l ih =>
    obtain ⟨k1, v⟩ := p
    by_cases h1 : k1 = bad
    · have hf : ((k1, v) :: l).filter (fun q => q.1 != bad) =
          l.filter (fun q => q.1 != bad) := by simp [List.filter, h1]
      rw [hf, ih, lookup_cons, if_neg (h1 ▸ h)]
    · have hb : ((k1, v).1 != bad) = true := by simp [h1]
      have hf : ((k1, v) :: l).filter (fun q => q.1 != bad) =
          (k1, v) :: l.filter (fun q => q.1 != bad) := by simp [List.filter, hb]
      rw [hf, lookup_cons, lookup_cons]
      by_cases h2 : k = k1
      · simp [h2]
      · rw [if_neg h2, if_neg h2, ih]

/-- Removing entries under a key that fails to compile does not change the
overlay applied for a given active list, as long as no active name equals
that key. -/
theorem applyActive_filter {bad : String} {em : EnvMap} :
    ∀ {active : List String} {vars : VarMap},
      (∀ name ∈ active, name ≠ bad) →
      applyActive (em.filter (fun p => p.1 != bad)) active vars =
        applyActive em active vars := by
  intro active
  induction active with
  | nil => intro vars _; rfl
  | cons name active ih =>
    intro vars h
    have hname : name ≠ bad := h name (by simp)
    show applyActive (em.filter (fun p => p.1 != bad)) active
        (match (em.filter (fun p => p.1 != bad)).lookup name with
         | some env => imExtend vars env
         | none => vars) = _
    rw [lookup_filter_ne hname]
    exact ih fun n hn => h n (by simp [hn])

/-- C7: a compile failure on one key of a conditional-variable map is
non-fatal: the computed active-environment list and the overlaid recipe
variable map both equal those computed from the same map with every entry
under the malformed key removed — the entry is treated as not satisfied
(only a warning is printed) and processing continues without error. -/
theorem conditional_compile_failure_nonfatal (bad e : String)
    (hbad : compile bad = .error e) :
    (∀ (em : EnvMap) (envs : List String),
        activeEnvs (em.filter (fun p => p.1 != bad)) envs = activeEnvs em envs) ∧
    (∀ (b : RecipeBase) (deps args : List String) (envs : List String),
        (Recipe.command { b with environments := b.environments.filter (fun p => p.1 != bad) }
            deps args).env_vars envs =
          (Recipe.command b deps args).env_vars envs) := by
  constructor
  · exact activeEnvs_filter_malformed hbad
  · intro b deps args envs
    show applyActive (b.environments.filter (fun p => p.1 != bad))
        (activeEnvs (b.environments.filter (fun p => p.1 != bad)) envs) b.vars =
      applyActive b.environments (activeEnvs b.environments envs) b.vars
    rw [activeEnvs_filter_malformed hbad]
    refine applyActive_filter ?_
    intro name hname hcontra
    obtain ⟨ex, hex⟩ := mem_activeEnvs_ok hname
    rw [hcontra, hbad] at hex
    exact Except.noConfusion hex

/-- Witness for C7 at the malformed key `"("`. -/
theorem conditional_compile_failure_nonfatal_witness :
    activeEnvs (([("(", [("X", "1")]), ("a", [("Y", "2")])] : EnvMap).filter
        (fun p => p.1 != "(")) ["a"] =
      activeEnvs [("(", [("X", "1")]), ("a", [("Y", "2")])] ["a"] :=
  (conditional_compile_failure_nonfatal "(" "Parse error; unexpected end of expression"
    rfl).1 [("(", [("X", "1")]), ("a", [("Y", "2")])] ["a"]

/-- C4: merging resolves every name collision parent-wins — a recipe or
runtime name already bound in the parent keeps the parent's entry unchanged
through `merge_absent` and `process_includes`, and a name absent from the
parent receives the incoming entry (its `search_dir` set to the child's
directory). -/
theorem merge_parent_wins :
    (∀ (d : Moldfile) (other : Mold) (k : String),
      (∀ r, d.recipes.lookup k = some r →
        (d.merge_absent other).recipes.lookup k = some r) ∧
      (d.recipes.lookup k = none →
        (d.merge_absent other).recipes.lookup k =
          (other.data.recipes.lookup k).map
            (fun rc => rc.set_search_dir (some other.dir))) ∧
      (∀ rt, d.runtimes.lookup k = some rt →
        (d.merge_absent other).runtimes.lookup k = some rt) ∧
      (d.runtimes.lookup k = none →
        (d.merge_absent other).runtimes.lookup k = other.data.runtimes.lookup k)) ∧
    (∀ (w : World) (f : Nat) (m m2 : Mold),
      processIncludes w f m = .ok m2 →
      ∀ k, (∀ r, m.data.recipes.lookup k = some r →
              m2.data.recipes.lookup k = some r) ∧
           (∀ rt, m.data.runtimes.lookup k = some rt →
              m2.data.runtimes.lookup k = some rt)) := by
  constructor
  · intro d other k
    refine ⟨fun r h => ?_, fun h => ?_, fun rt h => ?_, fun h => ?_⟩
    · rw [merge_absent_recipes_lookup, h]; rfl
    · rw [merge_absent_recipes_lookup, h]
      cases other.data.recipes.lookup k <;> rfl
    · rw [merge_absent_runtimes_lookup, h]; rfl
    · rw [merge_absent_runtimes_lookup, h]
      cases other.data.runtimes.lookup k <;> rfl
  · intro w f m m2 h k
    exact ⟨fun r hr => (processIncludes_preserves h).1 k r hr,
           fun rt hrt => (processIncludes_preserves h).2 k rt hrt⟩

/-- An empty recipe base shared by the concrete fixtures. -/
def base0 : RecipeBase :=
  { help := "", vars := [], environments := [], work_dir := none, search_dir := none }

/-- Parent moldfile declaring its own recipe `test` and runtime `sh`. -/
def mfParent : Moldfile :=
  { version := none, recipe_dir := "./mold", includes := []
    recipes := [("test", Recipe.command base0 [] ["parent-test"])]
    runtimes := [("sh", { command := ["sh"], extensions := [] })]
    vars := [], environments := [] }

/-- An included child that also defines recipe `test` and runtime `sh`. -/
def childInc : Mold :=
  { file := "/c/moldfile", dir := "/c/mold", root_dir := "/c"
    clone_dir := "/c/mold/.clones", script_dir := "/c/mold/.scripts", envs := []
    data :=
      { version := none, recipe_dir := "./mold", includes := []
        recipes := [("test", Recipe.command base0 [] ["child-test"]),
                    ("extra", Recipe.command base0 [] ["child-extra"])]
        runtimes := [("sh", { command := ["bash"], extensions := [] })]
        vars := [], environments := [] } }

/-- Witness for C4: the parent's `test` recipe and `sh` runtime survive the
merge unchanged, and the absent name `extra` is inserted. -/
theorem merge_parent_wins_witness :
    (mfParent.merge_absent childInc).recipes.lookup "test" =
        some (Recipe.command base0 [] ["parent-test"]) ∧
    (mfParent.merge_absent childInc).runtimes.lookup "sh" =
        some { command := ["sh"], extensions := [] } ∧
    (mfParent.merge_absent childInc).recipes.lookup "extra" =
        some ((Recipe.command base0 [] ["child-extra"]).set_search_dir
          (some "/c/mold")) := by
  refine ⟨(merge_parent_wins.1 mfParent childInc "test").1 _ rfl,
          (merge_parent_wins.1 mfParent childInc "sh").2.2.1 _ rfl, ?_⟩
  have h := (merge_parent_wins.1 mfParent childInc "extra").2.1 rfl
  rw [h]
  rfl

/-- C5 (amended): the five reserved variables synthesized in
`Mold::env_vars` override same-named entries of the moldfile's plain
variable map — but only when no active conditional-environment overlay
rebinds them, because the overlays are applied after the synthesized
inserts; the three task-level reserved variables inserted at the end of
`Mold::find_task` (`MOLD_MODULE_ROOT`, `MOLD_SEARCH_DIR`, `MOLD_WORK_DIR`)
always override user-declared variables. -/
theorem reserved_vars_layering :
    (∀ (m : Mold) (key val : String),
      (key, val) ∈ [("MOLD_ROOT", m.root_dir), ("MOLD_FILE", m.file),
        ("MOLD_DIR", m.dir), ("MOLD_CLONE_DIR", m.clone_dir),
        ("MOLD_SCRIPT_DIR", m.script_dir)] →
      (∀ name ∈ activeEnvs m.data.environments m.envs,
        ∀ env, m.data.environments.lookup name = some env → ∀ p ∈ env, p.1 ≠ key) →
      m.env_vars.lookup key = some val) ∧
    (∀ (m : Mold) (tn : String) (prev : VarMap) (out : VarMap × String × String),
      m.find_task_vars tn prev = .ok out →
      out.1.lookup "MOLD_MODULE_ROOT" = some m.root_dir ∧
      out.1.lookup "MOLD_SEARCH_DIR" = some out.2.1 ∧
      out.1.lookup "MOLD_WORK_DIR" = some out.2.2) := by
  constructor
  · intro m key val hmem hfrozen
    show (applyActive m.data.environments (activeEnvs m.data.environments m.envs)
        (imInsert (imInsert (imInsert (imInsert (imInsert m.data.vars
          "MOLD_ROOT" m.root_dir) "MOLD_FILE" m.file) "MOLD_DIR" m.dir)
          "MOLD_CLONE_DIR" m.clone_dir) "MOLD_SCRIPT_DIR" m.script_dir)).lookup key =
      some val
    rw [applyActive_lookup_frozen hfrozen]
    simp only [List.mem_cons, List.not_mem_nil, or_false, Prod.mk.injEq] at hmem
    rcases hmem with ⟨h1, h2⟩ | ⟨h1, h2⟩ | ⟨h1, h2⟩ | ⟨h1, h2⟩ | ⟨h1, h2⟩
    · subst h1; subst h2
      rw [lookup_imInsert, if_neg (by decide), lookup_imInsert, if_neg (by decide),
        lookup_imInsert, if_neg (by decide), lookup_imInsert, if_neg (by decide),
        lookup_imInsert, if_pos rfl]
    · subst h1; subst h2
      rw [lookup_imInsert, if_neg (by decide), lookup_imInsert, if_neg (by decide),
        lookup_imInsert, if_neg (by decide), lookup_imInsert, if_pos rfl]
    · subst h1; subst h2
      rw [lookup_imInsert, if_neg (by decide), lookup_imInsert, if_neg (by decide),
        lookup_imInsert, if_pos rfl]
    · subst h1; subst h2
      rw [lookup_imInsert, if_neg (by decide), lookup_imInsert, if_pos rfl]
    · subst h1; subst h2
      rw [lookup_imInsert, if_pos rfl]
  · intro m tn prev out h
    rw [Mold.find_task_vars, exbind_ok] at h
    obtain ⟨recipe, _, hpure⟩ := h
    have hout : out = (imInsert (imInsert (imInsert
        (imExtend prev (recipe.env_vars m.envs)) "MOLD_MODULE_ROOT" m.root_dir)
        "MOLD_SEARCH_DIR" ((recipe.search_dir).getD m.dir))
        "MOLD_WORK_DIR" (match recipe.work_dir with
          | none => m.root_dir
          | some val => m.root_dir ++ "/" ++ val),
        (recipe.search_dir).getD m.dir,
        (match recipe.work_dir with
          | none => m.root_dir
          | some val => m.root_dir ++ "/" ++ val)) := by
      cases hpure
      rfl
    subst hout
    refine ⟨?_, ?_, ?_⟩
    · rw [lookup_imInsert, if_neg (by decide), lookup_imInsert, if_neg (by decide),
        lookup_imInsert, if_pos rfl]
    · rw [lookup_imInsert, if_neg (by decide), lookup_imInsert, if_pos rfl]
    · rw [lookup_imInsert, if_pos rfl]

/-! ## Concrete fixtures and claim theorems: variable layering -/

/-- A mold whose active conditional environment `e` rebinds the reserved
variable `MOLD_ROOT` to the user value `"hacked"`. -/
def moldEnvC : Mold :=
  { file := "/r/moldfile", dir := "/r/mold", root_dir := "/r"
    clone_dir := "/r/mold/.clones", script_dir := "/r/mold/.scripts", envs := ["e"]
    data :=
      { version := none, recipe_dir := "./mold", includes := []
        recipes := [("A", Recipe.command base0 [] ["echo"])]
        runtimes := [], vars := []
        environments := [("e", [("MOLD_ROOT", "hacked")])] } }

/-- Counterexample to C5 as stated: with an active conditional-environment
overlay defining `MOLD_ROOT`, the variable map computed for task `A` binds
`MOLD_ROOT` to the user value `"hacked"`, not the synthesized root
directory `"/r"` — the overlays are applied after the synthesized inserts in
`Mold::env_vars`. -/
theorem reserved_vars_layering_counterexample :
    (moldEnvC.find_task_vars "A" moldEnvC.env_vars).map
        (fun out => out.1.lookup "MOLD_ROOT") = .ok (some "hacked") ∧
    moldEnvC.root_dir = "/r" ∧ "hacked" ≠ "/r" :=
  ⟨rfl, rfl, by decide⟩

/-- A mold declaring a plain (non-conditional) user variable `MOLD_ROOT`. -/
def mPlain : Mold :=
  { file := "/r/moldfile", dir := "/r/mold", root_dir := "/r"
    clone_dir := "/r/mold/.clones", script_dir := "/r/mold/.scripts", envs := []
    data :=
      { version := none, recipe_dir := "./mold", includes := []
        recipes := [("A", Recipe.command base0 [] ["echo"])]
        runtimes := [], vars := [("MOLD_ROOT", "uservar")], environments := [] } }

/-- Witness for C5 (amended): with no active overlays, the synthesized
`MOLD_ROOT` overrides the plain user variable, and the task-level
`MOLD_MODULE_ROOT` insert is visible in the final map. -/
theorem reserved_vars_layering_witness :
    mPlain.env_vars.lookup "MOLD_ROOT" = some mPlain.root_dir ∧
    (([("MOLD_MODULE_ROOT", "/r"), ("MOLD_SEARCH_DIR", "/r/mold"),
        ("MOLD_WORK_DIR", "/r")] : VarMap).lookup "MOLD_MODULE_ROOT" =
      some mPlain.root_dir) := by
  constructor
  · refine reserved_vars_layering.1 mPlain "MOLD_ROOT" mPlain.root_dir (by simp) ?_
    intro name hname
    simp [activeEnvs, mPlain] at hname
  · exact (reserved_vars_layering.2 mPlain "A" []
      ([("MOLD_MODULE_ROOT", "/r"), ("MOLD_SEARCH_DIR", "/r/mold"),
        ("MOLD_WORK_DIR", "/r")], "/r/mold", "/r") rfl).1

/-! ## Lemmas: the lexer on structured inputs -/

theorem takeWhile_append_all {α : Type} (p : α → Bool) :
    ∀ {l1 l2 : List α}, (∀ c ∈ l1, p c) →
      (l1 ++ l2).takeWhile p = l1 ++ l2.takeWhile p := by
  intro l1
  induction l1 with
  | nil => intro l2 _; rfl
  | cons c l1 ih =>
    intro l2 h
    have hc : p c := h c (by simp)
    simp only [List.cons_append, List.takeWhile_cons, hc, if_true,
      ih fun d hd => h d (by simp [hd])]

theorem dropWhile_append_all {α : Type} (p : α → Bool) :
    ∀ {l1 l2 : List α}, (∀ c ∈ l1, p c) →
      (l1 ++ l2).dropWhile p = l2.dropWhile p := by
  intro l1
  induction l1 with
  | nil => intro l2 _; rfl
  | cons c l1 ih =>
    intro l2 h
    have hc : p c := h c (by simp)
    simp only [List.cons_append, List.dropWhile_cons, hc, if_true,
      ih fun d hd => h d (by simp [hd])]

theorem takeWhile_head_false {α : Type} (p : α → Bool) (l : List α)
    (h : ∀ c, l.head? = some c → p c = false) : l.takeWhile p = [] := by
  cases l with
  | nil => rfl
  | cons c l => simp [List.takeWhile_cons, h c rfl]

theorem dropWhile_head_false {α : Type} (p : α → Bool) (l : List α)
    (h : ∀ c, l.head? = some c → p c = false) : l.dropWhile p = l := by
  cases l with
  | nil => rfl
  | cons c l => simp [List.dropWhile_cons, h c rfl]

theorem stringmk_data (s : String) : String.mk s.data = s := rfl

/-- Lexing a name made of name characters followed by a non-name boundary
produces one name token (the greedy `lex_name` loop). -/
theorem lex_name_boundary (s : String) (rest : List Char)
    (hne : s.data ≠ []) (hall : ∀ c ∈ s.data, isNameChar c)
    (hrest : ∀ c, rest.head? = some c → isNameChar c = false) :
    lex (s.data ++ rest) = Token.name s :: lex rest := by
  obtain ⟨c, cs, hcs⟩ : ∃ c cs, s.data = c :: cs := by
    cases hd : s.data with
    | nil => exact absurd hd hne
    | cons c cs => exact ⟨c, cs, rfl⟩
  rw [hcs, List.cons_append, lex_cons, if_pos (hall c (by rw [hcs]; simp))]
  have htake : (cs ++ rest).takeWhile isNameChar = cs := by
    rw [takeWhile_append_all isNameChar fun d hd => hall d (by rw [hcs]; simp [hd]),
      takeWhile_head_false isNameChar rest hrest, List.append_nil]
  have hdrop : (cs ++ rest).dropWhile isNameChar = rest := by
    rw [dropWhile_append_all isNameChar fun d hd => hall d (by rw [hcs]; simp [hd]),
      dropWhile_head_false isNameChar rest hrest]
  rw [htake, hdrop, ← hcs, stringmk_data]

theorem lex_space (cs : List Char) : lex (' ' :: cs) = lex cs := by
  rw [lex_cons]
  rfl

theorem lex_plus (cs : List Char) : lex ('+' :: cs) = Token.and :: lex cs := by
  rw [lex_cons]
  rfl

theorem lex_pipe (cs : List Char) : lex ('|' :: cs) = Token.or :: lex cs := by
  rw [lex_cons]
  rfl

theorem head_space_not_name : ∀ (l : List Char) (c : Char),
    (' ' :: l).head? = some c → isNameChar c = false := by
  intro l c hc
  simp only [List.head?_cons, Option.some.injEq] at hc
  rw [← hc]
  rfl

/-! ## Claim theorems: the expression engine -/

/-- Counterexample to C2 as stated: the text `"x + y | z"` compiles to
x AND (y OR z), and applying it to an active set containing only `z`
evaluates to `false`, not `true` — `+` does not take precedence over a `|`
appearing to its right. -/
theorem and_precedence_counterexample :
    (compile "x + y | z").map (fun e => e.apply ["z"]) = .ok false ∧
    compile "x + y | z" =
      .ok (.and (.atom "x") (.or (.atom "y") (.atom "z"))) :=
  ⟨rfl, rfl⟩

/-- C2 (amended): `parse_and` hands its right-hand side to `parse_expr`
(the whole grammar), so for any three names the text `x + y | z` compiles
to x AND (y OR z); applying it to an active set containing only `z` (with
`z` distinct from `x`) yields false. -/
theorem and_precedence_amended (x y z : String)
    (hx : x.data ≠ []) (hy : y.data ≠ []) (hz : z.data ≠ [])
    (hxn : ∀ c ∈ x.data, isNameChar c) (hyn : ∀ c ∈ y.data, isNameChar c)
    (hzn : ∀ c ∈ z.data, isNameChar c) (hxz : x ≠ z) :
    compile (x ++ " + " ++ y ++ " | " ++ z) =
      .ok (.and (.atom x) (.or (.atom y) (.atom z))) ∧
    (Expr.and (.atom x) (.or (.atom y) (.atom z))).apply [z] = false := by
  constructor
  · have hdata : (x ++ " + " ++ y ++ " | " ++ z).data =
        x.data ++ (' ' :: '+' :: ' ' :: (y.data ++ (' ' :: '|' :: ' ' :: z.data))) := by
      simp [String.data_append]
    have hztail : lex z.data = [Token.name z] := by
      have h0 : z.data ++ ([] : List Char) = z.data := List.append_nil _
      have := lex_name_boundary z [] hz hzn (by intro c hc; simp at hc)
      rw [h0] at this
      rw [this]
      rfl
    have hlex : lex (x ++ " + " ++ y ++ " | " ++ z).data =
        [Token.name x, Token.and, Token.name y, Token.or, Token.name z] := by
      rw [hdata, lex_name_boundary x _ hx hxn (head_space_not_name _),
        lex_space, lex_plus, lex_space,
        lex_name_boundary y _ hy hyn (head_space_not_name _),
        lex_space, lex_pipe, lex_space, hztail]
    show parse (lex (x ++ " + " ++ y ++ " | " ++ z).data) = _
    rw [hlex]
    rfl
  · have hzx : (x == z) = false := beq_eq_false_iff_ne.mpr hxz
    show (([z].contains x) && _) = false
    have hcont : ([z].contains x) = false := by
      show List.elem x [z] = false
      simp only [List.elem, hzx]
    rw [hcont]
    rfl

/-- Witness for C2 (amended) at the names `"x"`, `"y"`, `"z"`. -/
theorem and_precedence_amended_witness :
    compile ("x" ++ " + " ++ "y" ++ " | " ++ "z") =
      .ok (.and (.atom "x") (.or (.atom "y") (.atom "z"))) ∧
    (Expr.and (.atom "x") (.or (.atom "y") (.atom "z"))).apply ["z"] = false :=
  and_precedence_amended "x" "y" "z" (by decide) (by decide) (by decide)
    (by decide) (by decide) (by decide) (by decide)

/-- C6: `apply` evaluates And as conjunction, Or as disjunction, Not as
negation, Group as its inner value, Atom as membership in the active set and
Wildcard as true (it is a pure function); the compiled examples behave
accordingly. -/
theorem apply_semantics :
    (∀ (x y : Expr) (env : List String),
        (Expr.and x y).apply env = (x.apply env && y.apply env) ∧
        (Expr.or x y).apply env = (x.apply env || y.apply env)) ∧
    (∀ (x : Expr) (env : List String),
        (Expr.not x).apply env = !(x.apply env) ∧
        (Expr.group x).apply env = x.apply env) ∧
    (∀ (s : String) (env : List String), (Expr.atom s).apply env = env.contains s) ∧
    (∀ env : List String, Expr.wild.apply env = true) ∧
    (compile "a + b").map (fun e => e.apply ["a", "b"]) = .ok true ∧
    (compile "a + b").map (fun e => e.apply ["a"]) = .ok false ∧
    (compile "a | b").map (fun e => e.apply ["b"]) = .ok true ∧
    (compile "~a").map (fun e => e.apply []) = .ok true ∧
    (compile "~a").map (fun e => e.apply ["a"]) = .ok false ∧
    (∀ env : List String, (compile "*").map (fun e => e.apply env) = .ok true) :=
  ⟨fun _ _ _ => ⟨rfl, rfl⟩, fun _ _ => ⟨rfl, rfl⟩, fun _ _ => rfl, fun _ => rfl,
    rfl, rfl, rfl, rfl, rfl, fun _ => rfl⟩

/-- C8: `compile` fails on a dangling operator, an unclosed parenthesis and
on trailing tokens — with the three distinct parse errors — and succeeds
exactly when the token stream parses as one complete expression with no
remainder. -/
theorem compile_error_conditions :
    compile "a +" = .error "Parse error; unexpected end of expression" ∧
    compile "(a" = .error "Parse error; expected close parenthesis" ∧
    compile "a b" = .error "Parse error; expected end of expression" ∧
    (∀ text : String,
      (∃ e, compile text = .ok e) ↔
        (∃ e, parseExpr (exprFuel (lex text.data)) (lex text.data) = .ok (e, []))) := by
  refine ⟨rfl, rfl, rfl, ?_⟩
  intro text
  show (∃ e, parse (lex text.data) = .ok e) ↔ _
  unfold parse
  cases h : parseExpr (exprFuel (lex text.data)) (lex text.data) with
  | ok p =>
    obtain ⟨e, rest⟩ := p
    cases rest with
    | nil => simp
    | cons t ts => simp
  | error msg => simp

/-! ## Claim theorems: remote references -/

/-- C9: round-trip of `Remote` serialization for
`{url: "host/repo.git", ref: "dev", file: Some("x.yaml")}` — parsing the
printed string reproduces the url, ref and file fields. -/
theorem remote_roundtrip :
    Remote.parse
        (Remote.to_string { url := "host/repo.git", ref_ := "dev", file := some "x.yaml" }) =
      { url := "host/repo.git", ref_ := "dev", file := some "x.yaml" } := rfl

theorem splitAtFirst_not_mem (c : Char) (cs : List Char) (h : c ∉ cs) :
    splitAtFirst c cs = none := by
  unfold splitAtFirst
  rw [if_neg]
  simpa using h

theorem splitAtFirst_append (c : Char) (l1 l2 : List Char) (h : c ∉ l1) :
    splitAtFirst c (l1 ++ c :: l2) = some (l1, c :: l2) := by
  unfold splitAtFirst
  rw [if_pos (by simp)]
  have hall : ∀ d ∈ l1, (d != c) = true := fun d hd =>
    bne_iff_ne.mpr fun hc => h (hc ▸ hd)
  have hhead : ∀ d, ((c :: l2).head? = some d) → (d != c) = false := by
    intro d hd
    simp only [List.head?_cons, Option.some.injEq] at hd
    rw [← hd]
    simp
  rw [takeWhile_append_all _ hall, takeWhile_head_false _ _ hhead, List.append_nil,
    dropWhile_append_all _ hall, dropWhile_head_false _ _ hhead]

/-- Dropping leading copies of `c` from `c :: l` yields `l` when `l` does
not itself start with `c`. -/
theorem dropWhile_beq_cons (c : Char) (l : List Char)
    (h : ∀ d, l.head? = some d → d ≠ c) :
    (c :: l).dropWhile (· == c) = l := by
  rw [List.dropWhile_cons]
  simp only [beq_self_eq_true, if_true]
  exact dropWhile_head_false _ _ fun d hd => beq_eq_false_iff_ne.mpr (h d hd)

theorem fragRefFile_no_slash (frag : List Char) (h : '/' ∉ frag) :
    fragRefFile frag = (String.mk frag, none) := by
  unfold fragRefFile
  rw [splitAtFirst_not_mem '/' frag h]

theorem fragRefFile_empty_ref (l : List Char)
    (h : ∀ d, l.head? = some d → d ≠ '/') :
    fragRefFile ('/' :: l) = ("master", some (String.mk l)) := by
  unfold fragRefFile
  rw [show ('/' :: l) = [] ++ '/' :: l from rfl,
    splitAtFirst_append '/' [] l (by simp)]
  simp only []
  rw [dropWhile_beq_cons '/' l h]
  rfl

/-- C10: `Remote::parse` and the `FromStr` implementations built on it (for
`Remote` and for `Include`) are total — they return an `Ok` `Remote` on
every input string — with ref defaulting to `"master"` when the `#`
fragment is absent or the fragment's ref part before the `/` is empty, and
file `None` when the fragment contains no `/`. -/
theorem remote_parse_total :
    (∀ s : String, Remote.from_str s = .ok (Remote.parse s)) ∧
    (∀ s : String, Include.from_str s = .ok (Include.parse s)) ∧
    (∀ s : String, '#' ∉ s.data →
      Remote.parse s = { url := s, ref_ := "master", file := none } ∧
      Include.parse s = { url := s, ref_ := default_git_ref, file := none }) ∧
    (∀ u f : String, '#' ∉ u.data → '#' ∉ f.data → '/' ∉ f.data →
      Remote.parse (u ++ "#" ++ f) = { url := u, ref_ := f, file := none }) ∧
    (∀ u f : String, '#' ∉ u.data → (∀ c, f.data.head? = some c → c ≠ '/') →
      Remote.parse (u ++ "#/" ++ f) =
        { url := u, ref_ := "master", file := some f }) := by
  refine ⟨fun s => rfl, fun s => rfl, ?_, ?_, ?_⟩
  · intro s h
    constructor
    · unfold Remote.parse
      rw [splitAtFirst_not_mem '#' s.data h]
    · unfold Include.parse
      rw [splitAtFirst_not_mem '#' s.data h]
  · intro u f hu hf hslash
    have hdata : (u ++ "#" ++ f).data = u.data ++ '#' :: f.data := by
      simp [String.data_append]
    have hdrop : ('#' :: f.data).dropWhile (· == '#') = f.data :=
      dropWhile_beq_cons '#' f.data fun d hd hc => by
        cases hfd : f.data with
        | nil => rw [hfd] at hd; simp at hd
        | cons a l =>
          rw [hfd] at hd
          simp only [List.head?_cons, Option.some.injEq] at hd
          exact hf (by rw [← hc, ← hd, hfd]; simp)
    unfold Remote.parse
    rw [hdata, splitAtFirst_append '#' u.data f.data hu]
    simp only []
    rw [hdrop, fragRefFile_no_slash f.data hslash]
  · intro u f hu hf
    have hdata : (u ++ "#/" ++ f).data = u.data ++ '#' :: '/' :: f.data := by
      simp [String.data_append]
    have hdrop : ('#' :: '/' :: f.data).dropWhile (· == '#') = '/' :: f.data :=
      dropWhile_beq_cons '#' ('/' :: f.data) (by
        intro d hd
        simp only [List.head?_cons, Option.some.injEq] at hd
        rw [← hd]
        decide)
    unfold Remote.parse
    rw [hdata, splitAtFirst_append '#' u.data ('/' :: f.data) hu]
    simp only []
    rw [hdrop, fragRefFile_empty_ref f.data hf]

/-- Witness for C10 at `"host/x.git"`, `"dev"`, and a `#/`-only fragment. -/
theorem remote_parse_total_witness :
    Remote.from_str "host/x.git" = .ok (Remote.parse "host/x.git") ∧
    Remote.parse "host" = { url := "host", ref_ := "master", file := none } ∧
    Remote.parse ("host" ++ "#" ++ "dev") =
      { url := "host", ref_ := "dev", file := none } ∧
    Remote.parse ("host" ++ "#/" ++ "m.yaml") =
      { url := "host", ref_ := "master", file := some "m.yaml" } :=
  ⟨remote_parse_total.1 "host/x.git",
   (remote_parse_total.2.2.1 "host" (by decide)).1,
   remote_parse_total.2.2.2.1 "host" "dev" (by decide) (by decide) (by decide),
   remote_parse_total.2.2.2.2 "host" "m.yaml" (by decide)
     (by intro c hc; simp at hc; subst hc; decide)⟩

/-! ## Lemmas: insertion-ordered sets (`TaskSet`) -/

theorem mem_tsInsert {l : TaskSet} {x y : String} :
    y ∈ tsInsert l x ↔ y ∈ l ∨ y = x := by
  unfold tsInsert
  by_cases h : x ∈ l
  · rw [if_pos h]
    constructor
    · exact Or.inl
    · rintro (hy | rfl)
      · exact hy
      · exact h
  · rw [if_neg h]
    simp

theorem tsInsert_append (l : TaskSet) (x : String) :
    ∃ r, tsInsert l x = l ++ r := by
  unfold tsInsert
  by_cases h : x ∈ l
  · exact ⟨[], by rw [if_pos h, List.append_nil]⟩
  · exact ⟨[x], by rw [if_neg h]⟩

theorem nodup_tsInsert {l : TaskSet} (h : l.Nodup) (x : String) :
    (tsInsert l x).Nodup := by
  unfold tsInsert
  by_cases hx : x ∈ l
  · rw [if_pos hx]; exact h
  · rw [if_neg hx]
    exact List.Nodup.append h (List.nodup_singleton x)
      (fun a ha hax => hx ((List.mem_singleton.mp hax) ▸ ha))

theorem tsExtend_append : ∀ (xs : List String) (l : TaskSet),
    ∃ r, tsExtend l xs = l ++ r := by
  intro xs
  induction xs with
  | nil => exact fun l => ⟨[], (List.append_nil l).symm⟩
  | cons x xs ih =>
    intro l
    obtain ⟨r1, hr1⟩ := tsInsert_append l x
    obtain ⟨r2, hr2⟩ := ih (tsInsert l x)
    exact ⟨r1 ++ r2, by
      show tsExtend (tsInsert l x) xs = l ++ (r1 ++ r2)
      rw [hr2, hr1, List.append_assoc]⟩

theorem mem_tsExtend : ∀ (xs : List String) (l : TaskSet) (y : String),
    y ∈ tsExtend l xs ↔ y ∈ l ∨ y ∈ xs := by
  intro xs
  induction xs with
  | nil => simp [tsExtend]
  | cons x xs ih =>
    intro l y
    show y ∈ tsExtend (tsInsert l x) xs ↔ _
    rw [ih, mem_tsInsert]
    constructor
    · rintro ((hy | rfl) | hy)
      · exact Or.inl hy
      · exact Or.inr (by simp)
      · exact Or.inr (by simp [hy])
    · rintro (hy | hy)
      · exact Or.inl (Or.inl hy)
      · rcases List.mem_cons.mp hy with rfl | hy
        · exact Or.inl (Or.inr rfl)
        · exact Or.inr hy

theorem nodup_tsExtend : ∀ (xs : List String) {l : TaskSet}, l.Nodup →
    (tsExtend l xs).Nodup := by
  intro xs
  induction xs with
  | nil => exact fun h => h
  | cons x xs ih =>
    intro l h
    exact ih (nodup_tsInsert h x)

theorem nodup_tsOf (xs : List String) : (tsOf xs).Nodup :=
  nodup_tsExtend xs List.nodup_nil

theorem mem_tsOf {xs : List String} {y : String} : y ∈ tsOf xs ↔ y ∈ xs := by
  unfold tsOf
  rw [mem_tsExtend]
  simp

theorem tsExtend_eq_append : ∀ (xs : List String) (l : TaskSet),
    xs.Nodup → (∀ x ∈ xs, x ∉ l) → tsExtend l xs = l ++ xs := by
  intro xs
  induction xs with
  | nil => intro l _ _; exact (List.append_nil l).symm
  | cons x xs ih =>
    intro l hnd hdisj
    have hx : x ∉ l := hdisj x (by simp)
    show tsExtend (tsInsert l x) xs = l ++ x :: xs
    have hins : tsInsert l x = l ++ [x] := by unfold tsInsert; rw [if_neg hx]
    rw [hins, ih (l ++ [x]) (List.nodup_cons.mp hnd).2]
    · simp
    · intro a ha
      rcases List.nodup_cons.mp hnd with ⟨hxnotin, _⟩
      simp only [List.mem_append, List.mem_singleton]
      rintro (hal | rfl)
      · exact hdisj a (by simp [ha]) hal
      · exact hxnotin ha

theorem tsOf_eq_self {xs : List String} (h : xs.Nodup) : tsOf xs = xs := by
  unfold tsOf
  rw [tsExtend_eq_append xs [] h (by simp)]
  rfl

/-! ## Lemmas: relative position in an ordered set -/

/-- `a` is inserted strictly before `b` in the ordered set `l`. -/
def before (l : List String) (a b : String) : Prop :=
  a ∈ l ∧ b ∈ l ∧ l.indexOf a < l.indexOf b

theorem before_append_left {l r : List String} {a b : String}
    (h : before l a b) : before (l ++ r) a b := by
  obtain ⟨ha, hb, hlt⟩ := h
  exact ⟨List.mem_append_left _ ha, List.mem_append_left _ hb, by
    rw [List.indexOf_append_of_mem ha, List.indexOf_append_of_mem hb]; exact hlt⟩

theorem before_append_new {l : List String} {a b : String}
    (ha : a ∈ l) (hb : b ∉ l) : before (l ++ [b]) a b := by
  refine ⟨List.mem_append_left _ ha, List.mem_append_right _ (by simp), ?_⟩
  rw [List.indexOf_append_of_mem ha, List.indexOf_append_of_not_mem hb]
  calc l.indexOf a < l.length := List.indexOf_lt_length.mpr ha
    _ ≤ l.length + [b].indexOf b := Nat.le_add_right _ _

theorem before_trans {l : List String} {a b c : String}
    (h1 : before l a b) (h2 : before l b c) : before l a c :=
  ⟨h1.1, h2.2.1, lt_trans h1.2.2 h2.2.2⟩

theorem before_head_absurd {y : String} {d2 : List String} {x : String}
    (h : before (y :: d2) x y) : False := by
  obtain ⟨_, _, hlt⟩ := h
  rw [List.indexOf_cons_self] at hlt
  exact Nat.not_lt_zero _ hlt

theorem before_cons_lift {y : String} {d2 : List String} {x t : String}
    (hx : x ≠ y) (ht : t ≠ y) (h : before (y :: d2) x t) : before d2 x t := by
  obtain ⟨hxm, htm, hlt⟩ := h
  have hxm2 : x ∈ d2 := by
    rcases List.mem_cons.mp hxm with rfl | h2
    · exact absurd rfl hx
    · exact h2
  have htm2 : t ∈ d2 := by
    rcases List.mem_cons.mp htm with rfl | h2
    · exact absurd rfl ht
    · exact h2
  refine ⟨hxm2, htm2, ?_⟩
  rw [List.indexOf_cons_ne _ (Ne.symm hx), List.indexOf_cons_ne _ (Ne.symm ht)] at hlt
  exact Nat.lt_of_succ_lt_succ hlt

theorem indexOf_map_inj {f : String → String} (hinj : Function.Injective f) :
    ∀ (l : List String) (a : String), (l.map f).indexOf (f a) = l.indexOf a := by
  intro l
  induction l with
  | nil => intro a; rfl
  | cons c l ih =>
    intro a
    by_cases h : c = a
    · subst h
      rw [List.map_cons, List.indexOf_cons_self, List.indexOf_cons_self]
    · rw [List.map_cons,
        List.indexOf_cons_ne (List.map f l) (show f c ≠ f a from fun hc => h (hinj hc)),
        List.indexOf_cons_ne l (show c ≠ a from h), ih]

theorem before_map {f : String → String} (hinj : Function.Injective f)
    {l : List String} {a b : String} (h : before l a b) :
    before (l.map f) (f a) (f b) :=
  ⟨List.mem_map_of_mem f h.1, List.mem_map_of_mem f h.2.1, by
    rw [indexOf_map_inj hinj, indexOf_map_inj hinj]; exact h.2.2⟩

/-! ## Lemmas: fuel monotonicity of the dependency resolver -/

theorem findTaskDeps_succ_none {w : World} {f : Nat} {m : Mold} {target : String}
    (hs : splitSlash target = none) :
    findTaskDeps w (f + 1) m target = (do
      let recipe ← m.find_recipe target
      findAllDeps w f m (tsOf recipe.deps)) := by
  rw [findTaskDeps, hs]

theorem findTaskDeps_succ_some {w : World} {f : Nat} {m : Mold} {target mn rn : String}
    (hs : splitSlash target = some (mn, rn)) :
    findTaskDeps w (f + 1) m target = (do
      let module ← openModule w f m mn
      let deps ← findTaskDeps w f module rn
      let full ← findAllDeps w f module deps
      pure (tsOf (full.map (fun x => mn ++ "/" ++ x)))) := by
  rw [findTaskDeps, hs]

theorem findAllDeps_succ (w : World) (f : Nat) (m : Mold) (targets : TaskSet) :
    findAllDeps w (f + 1) m targets =
      targets.foldlM (fun acc t => do
        let d ← findTaskDeps w f m t
        pure (tsInsert (tsExtend acc d) t)) [] := by
  rw [findAllDeps]

theorem processIncludes_succ (w : World) (f : Nat) (self : Mold) :
    processIncludes w (f + 1) self = (do
      let merges ← self.data.includes.mapM (fun inc => do
        let m ← discover w (self.clone_dir ++ "/" ++ hash_url_ref inc.url inc.ref_) inc.file
        processIncludes w f (m.adopt self))
      pure { self with data := merges.foldl Moldfile.merge_absent self.data }) := by
  rw [processIncludes]

theorem foldlM_step_mono {step step2 : TaskSet → String → Except String TaskSet}
    (h : ∀ acc t r2, step acc t = .ok r2 → step2 acc t = .ok r2) :
    ∀ (ts : List String) (acc r : TaskSet),
      List.foldlM step acc ts = .ok r → List.foldlM step2 acc ts = .ok r := by
  intro ts
  induction ts with
  | nil => intro acc r hr; simpa using hr
  | cons t ts ih =>
    intro acc r hr
    rw [List.foldlM_cons] at hr ⊢
    rw [exbind_ok] at hr
    obtain ⟨acc2, h1, h2⟩ := hr
    rw [exbind_ok]
    exact ⟨acc2, h acc t acc2 h1, ih acc2 r h2⟩

theorem mapM_mono {g g2 : Include → Except String Mold}
    (h : ∀ x r, g x = .ok r → g2 x = .ok r) :
    ∀ (l : List Include) (r : List Mold), l.mapM g = .ok r → l.mapM g2 = .ok r := by
  intro l
  induction l with
  | nil => intro r hr; simpa using hr
  | cons x l ih =>
    intro r hr
    rw [List.mapM_cons] at hr ⊢
    rw [exbind_ok] at hr
    obtain ⟨y, h1, h2⟩ := hr
    rw [exbind_ok] at h2
    obtain ⟨ys, h3, h4⟩ := h2
    rw [exbind_ok]
    refine ⟨y, h x y h1, ?_⟩
    rw [exbind_ok]
    exact ⟨ys, ih ys h3, h4⟩

theorem resolver_mono_step (w : World) :
    ∀ f : Nat,
      (∀ m ts r, findAllDeps w f m ts = .ok r → findAllDeps w (f + 1) m ts = .ok r) ∧
      (∀ m t d, findTaskDeps w f m t = .ok d → findTaskDeps w (f + 1) m t = .ok d) ∧
      (∀ m r, processIncludes w f m = .ok r → processIncludes w (f + 1) m = .ok r) := by
  intro f
  induction f with
  | zero =>
    refine ⟨fun m ts r h => ?_, fun m t d h => ?_, fun m r h => ?_⟩
    · exact absurd h (by rw [findAllDeps]; simp)
    · exact absurd h (by rw [findTaskDeps]; simp)
    · exact absurd h (by rw [processIncludes]; simp)
  | succ f ih =>
    obtain ⟨ihA, ihT, ihP⟩ := ih
    have hopen : ∀ m name mold, openModule w f m name = .ok mold →
        openModule w (f + 1) m name = .ok mold := by
      intro m name mold h
      unfold openModule at h ⊢
      rw [exbind_ok] at h ⊢
      obtain ⟨⟨url, ref_, fileOpt⟩, h1, h2⟩ := h
      refine ⟨(url, ref_, fileOpt), h1, ?_⟩
      rw [exbind_ok] at h2 ⊢
      obtain ⟨m2, h3, h4⟩ := h2
      exact ⟨m2, h3, ihP _ _ h4⟩
    refine ⟨fun m ts r h => ?_, fun m t d h => ?_, fun m r h => ?_⟩
    · rw [findAllDeps_succ] at h ⊢
      refine foldlM_step_mono ?_ ts [] r h
      intro acc t r2 hstep
      rw [exbind_ok] at hstep ⊢
      obtain ⟨d, hd, hp⟩ := hstep
      exact ⟨d, ihT _ _ _ hd, hp⟩
    · cases hs : splitSlash t with
      | none =>
        rw [findTaskDeps_succ_none hs] at h ⊢
        rw [exbind_ok] at h ⊢
        obtain ⟨recipe, h1, h2⟩ := h
        exact ⟨recipe, h1, ihA _ _ _ h2⟩
      | some p =>
        obtain ⟨mn, rn⟩ := p
        rw [findTaskDeps_succ_some hs] at h ⊢
        rw [exbind_ok] at h ⊢
        obtain ⟨module, h1, h2⟩ := h
        refine ⟨module, hopen _ _ _ h1, ?_⟩
        rw [exbind_ok] at h2 ⊢
        obtain ⟨deps, h3, h4⟩ := h2
        refine ⟨deps, ihT _ _ _ h3, ?_⟩
        rw [exbind_ok] at h4 ⊢
        obtain ⟨full, h5, h6⟩ := h4
        exact ⟨full, ihA _ _ _ h5, h6⟩
    · rw [processIncludes_succ] at h ⊢
      rw [exbind_ok] at h ⊢
      obtain ⟨merges, h1, h2⟩ := h
      refine ⟨merges, ?_, h2⟩
      refine mapM_mono ?_ _ _ h1
      intro inc mold hg
      rw [exbind_ok] at hg ⊢
      obtain ⟨m2, h3, h4⟩ := hg
      exact ⟨m2, h3, ihP _ _ h4⟩

theorem findAllDeps_mono {w : World} {f f2 : Nat} (hle : f ≤ f2) {m : Mold}
    {ts r : TaskSet} (h : findAllDeps w f m ts = .ok r) :
    findAllDeps w f2 m ts = .ok r := by
  induction hle with
  | refl => exact h
  | step _ ih => exact (resolver_mono_step w _).1 _ _ _ ih

theorem findTaskDeps_mono {w : World} {f f2 : Nat} (hle : f ≤ f2) {m : Mold}
    {t : String} {d : TaskSet} (h : findTaskDeps w f m t = .ok d) :
    findTaskDeps w f2 m t = .ok d := by
  induction hle with
  | refl => exact h
  | step _ ih => exact (resolver_mono_step w _).2.1 _ _ _ ih

theorem openModule_mono_step {w : World} {f : Nat} {m : Mold} {name : String}
    {mold : Mold} (h : openModule w f m name = .ok mold) :
    openModule w (f + 1) m name = .ok mold := by
  unfold openModule at h ⊢
  rw [exbind_ok] at h ⊢
  obtain ⟨⟨url, ref_, fileOpt⟩, h1, h2⟩ := h
  refine ⟨(url, ref_, fileOpt), h1, ?_⟩
  rw [exbind_ok] at h2 ⊢
  obtain ⟨m2, h3, h4⟩ := h2
  exact ⟨m2, h3, (resolver_mono_step w f).2.2 _ _ h4⟩

theorem openModule_mono {w : World} {f f2 : Nat} (hle : f ≤ f2) {m : Mold}
    {name : String} {mold : Mold} (h : openModule w f m name = .ok mold) :
    openModule w f2 m name = .ok mold := by
  induction hle with
  | refl => exact h
  | step _ ih => exact openModule_mono_step ih

/-! ## Lemmas: deduplication, membership and re-runnability -/

/-- `t`'s dependency set resolves to `d` at some fuel (fuel-independent by
monotonicity, `ftdO_unique`). -/
def ftdO (w : World) (m : Mold) (t : String) (d : TaskSet) : Prop :=
  ∃ f, findTaskDeps w f m t = .ok d

theorem ftdO_unique {w : World} {m : Mold} {t : String} {d1 d2 : TaskSet}
    (h1 : ftdO w m t d1) (h2 : ftdO w m t d2) : d1 = d2 := by
  obtain ⟨f1, h1⟩ := h1
  obtain ⟨f2, h2⟩ := h2
  have e1 := findTaskDeps_mono (Nat.le_max_left f1 f2) h1
  have e2 := findTaskDeps_mono (Nat.le_max_right f1 f2) h2
  rw [e1] at e2
  exact Except.ok.inj e2

theorem findAllDeps_nodup {w : World} :
    ∀ {f : Nat} {m : Mold} {ts r : TaskSet},
      findAllDeps w f m ts = .ok r → r.Nodup := by
  intro f m ts r h
  cases f with
  | zero => exact absurd h (by rw [findAllDeps]; simp)
  | succ f =>
    rw [findAllDeps_succ] at h
    suffices haux : ∀ (ts2 : List String) (acc r2 : TaskSet), acc.Nodup →
        List.foldlM (fun acc t => do
          let d ← findTaskDeps w f m t
          pure (tsInsert (tsExtend acc d) t)) acc ts2 = .ok r2 → r2.Nodup from
      haux ts [] r List.nodup_nil h
    intro ts2
    induction ts2 with
    | nil =>
      intro acc r2 hN hr
      rw [List.foldlM_nil] at hr
      rw [← Except.ok.inj hr]
      exact hN
    | cons t ts2 ih =>
      intro acc r2 hN hr
      rw [List.foldlM_cons] at hr
      rw [exbind_ok] at hr
      obtain ⟨acc2, h1, h2⟩ := hr
      rw [exbind_ok] at h1
      obtain ⟨d, _, hpure⟩ := h1
      have hacc2 : acc2 = tsInsert (tsExtend acc d) t := by
        cases hpure
        rfl
      subst hacc2
      exact ih _ _ (nodup_tsInsert (nodup_tsExtend d hN) t) h2

theorem findTaskDeps_nodup {w : World} {f : Nat} {m : Mold} {t : String}
    {d : TaskSet} (h : findTaskDeps w f m t = .ok d) : d.Nodup := by
  cases f with
  | zero => exact absurd h (by rw [findTaskDeps]; simp)
  | succ f =>
    cases hs : splitSlash t with
    | none =>
      rw [findTaskDeps_succ_none hs, exbind_ok] at h
      obtain ⟨recipe, _, h2⟩ := h
      exact findAllDeps_nodup h2
    | some p =>
      obtain ⟨mn, rn⟩ := p
      rw [findTaskDeps_succ_some hs, exbind_ok] at h
      obtain ⟨module, _, h2⟩ := h
      rw [exbind_ok] at h2
      obtain ⟨deps, _, h3⟩ := h2
      rw [exbind_ok] at h3
      obtain ⟨full, _, hpure⟩ := h3
      have : d = tsOf (full.map (fun x => mn ++ "/" ++ x)) := by
        cases hpure
        rfl
      rw [this]
      exact nodup_tsOf _

/-- Every member of a `find_all_dependencies` result is a requested target
or a member of some requested target's dependency set. -/
theorem findAllDeps_mem {w : World} {f : Nat} {m : Mold} {ts r : TaskSet}
    (h : findAllDeps w (f + 1) m ts = .ok r) :
    ∀ x ∈ r, x ∈ ts ∨ ∃ t ∈ ts, ∃ d, findTaskDeps w f m t = .ok d ∧ x ∈ d := by
  rw [findAllDeps_succ] at h
  suffices haux : ∀ (ts2 : List String) (acc r2 : TaskSet),
      List.foldlM (fun acc t => do
        let d ← findTaskDeps w f m t
        pure (tsInsert (tsExtend acc d) t)) acc ts2 = .ok r2 →
      ∀ x ∈ r2, x ∈ acc ∨ x ∈ ts2 ∨ ∃ t ∈ ts2, ∃ d, findTaskDeps w f m t = .ok d ∧ x ∈ d by
    intro x hx
    rcases haux ts [] r h x hx with hc | hc | hc
    · exact absurd hc (List.not_mem_nil x)
    · exact Or.inl hc
    · exact Or.inr hc
  intro ts2
  induction ts2 with
  | nil =>
    intro acc r2 hr x hx
    rw [List.foldlM_nil] at hr
    rw [← Except.ok.inj hr] at hx
    exact Or.inl hx
  | cons t ts2 ih =>
    intro acc r2 hr x hx
    rw [List.foldlM_cons] at hr
    rw [exbind_ok] at hr
    obtain ⟨acc2, h1, h2⟩ := hr
    rw [exbind_ok] at h1
    obtain ⟨d, hd, hpure⟩ := h1
    have hacc2 : acc2 = tsInsert (tsExtend acc d) t := by
      cases hpure
      rfl
    subst hacc2
    rcases ih _ _ h2 x hx with hc | hc | ⟨t2, ht2, d2, hd2, hxd2⟩
    · rcases mem_tsInsert.mp hc with hc2 | rfl
      · rcases (mem_tsExtend d acc x).mp hc2 with hc3 | hc3
        · exact Or.inl hc3
        · exact Or.inr (Or.inr ⟨t, by simp, d, hd, hc3⟩)
      · exact Or.inr (Or.inl (by simp))
    · exact Or.inr (Or.inl (by simp [hc]))
    · exact Or.inr (Or.inr ⟨t2, by simp [ht2], d2, hd2, hxd2⟩)

/-- If every requested name has a resolvable dependency set, the whole
request resolves at some fuel. -/
theorem findAllDeps_exists {w : World} {m : Mold} {ts : TaskSet}
    (h : ∀ t ∈ ts, ∃ d, ftdO w m t d) :
    ∃ F r, findAllDeps w (F + 1) m ts = .ok r := by
  have hcommon : ∃ F, ∀ t ∈ ts, ∃ d, findTaskDeps w F m t = .ok d := by
    induction ts with
    | nil => exact ⟨0, by simp⟩
    | cons t ts ih =>
      obtain ⟨F1, hF1⟩ := ih fun t2 ht2 => h t2 (by simp [ht2])
      obtain ⟨d, f0, hf0⟩ := h t (by simp)
      refine ⟨max F1 f0, ?_⟩
      intro t2 ht2
      rcases List.mem_cons.mp ht2 with rfl | ht2
      · exact ⟨d, findTaskDeps_mono (Nat.le_max_right F1 f0) hf0⟩
      · obtain ⟨d2, hd2⟩ := hF1 t2 ht2
        exact ⟨d2, findTaskDeps_mono (Nat.le_max_left F1 f0) hd2⟩
  obtain ⟨F, hF⟩ := hcommon
  suffices haux : ∀ (ts2 : List String), (∀ t ∈ ts2, ∃ d, findTaskDeps w F m t = .ok d) →
      ∀ acc : TaskSet, ∃ r, List.foldlM (fun acc t => do
        let d ← findTaskDeps w F m t
        pure (tsInsert (tsExtend acc d) t)) acc ts2 = .ok r by
    obtain ⟨r, hr⟩ := haux ts hF []
    exact ⟨F, r, by rw [findAllDeps_succ]; exact hr⟩
  intro ts2
  induction ts2 with
  | nil => intro _ acc; exact ⟨acc, rfl⟩
  | cons t ts2 ih =>
    intro hall acc
    obtain ⟨d, hd⟩ := hall t (by simp)
    obtain ⟨r, hr⟩ := ih (fun t2 ht2 => hall t2 (by simp [ht2])) (tsInsert (tsExtend acc d) t)
    refine ⟨r, ?_⟩
    rw [List.foldlM_cons]
    rw [exbind_ok]
    exact ⟨tsInsert (tsExtend acc d) t, by rw [exbind_ok]; exact ⟨d, hd, rfl⟩, hr⟩

/-! ## Lemmas: the dependency-before-dependent ordering invariant -/

/-- Every member of `l` is preceded in `l` by every member of its resolved
dependency set. -/
def depsOrd (w : World) (m : Mold) (l : TaskSet) : Prop :=
  ∀ t ∈ l, ∃ d, ftdO w m t d ∧ ∀ x ∈ d, before l x t

theorem depsOrd_extend {w : World} {m : Mold} :
    ∀ {d acc : TaskSet}, acc.Nodup → depsOrd w m acc → d.Nodup →
      (∀ t ∈ d, ∃ dt, ftdO w m t dt ∧ ∀ x ∈ dt, x ∈ acc ∨ before d x t) →
      (tsExtend acc d).Nodup ∧ depsOrd w m (tsExtend acc d) := by
  intro d
  induction d with
  | nil => intro acc hN hord _ _; exact ⟨hN, hord⟩
  | cons y d2 ih =>
    intro acc hN hord hdN hd
    obtain ⟨hynotin, hd2N⟩ := List.nodup_cons.mp hdN
    have hyprop : ∃ dy, ftdO w m y dy ∧ ∀ x ∈ dy, x ∈ acc := by
      obtain ⟨dy, hdyO, hdyb⟩ := hd y (by simp)
      refine ⟨dy, hdyO, ?_⟩
      intro x hx
      rcases hdyb x hx with hxa | hxb
      · exact hxa
      · exact absurd hxb before_head_absurd
    have haccN2 : (tsInsert acc y).Nodup := nodup_tsInsert hN y
    have hord2 : depsOrd w m (tsInsert acc y) := by
      by_cases hy : y ∈ acc
      · rw [show tsInsert acc y = acc by unfold tsInsert; rw [if_pos hy]]
        exact hord
      · have heq : tsInsert acc y = acc ++ [y] := by unfold tsInsert; rw [if_neg hy]
        rw [heq]
        intro t ht
        rcases List.mem_append.mp ht with hta | hty
        · obtain ⟨dt, hdtO, hdtb⟩ := hord t hta
          exact ⟨dt, hdtO, fun x hx => before_append_left (hdtb x hx)⟩
        · obtain rfl : t = y := by simpa using hty
          obtain ⟨dy, hdyO, hdysub⟩ := hyprop
          exact ⟨dy, hdyO, fun x hx => before_append_new (hdysub x hx) hy⟩
    show (tsExtend (tsInsert acc y) d2).Nodup ∧ depsOrd w m (tsExtend (tsInsert acc y) d2)
    refine ih haccN2 hord2 hd2N ?_
    intro t ht
    obtain ⟨dt, hdtO, hdtb⟩ := hd t (by simp [ht])
    refine ⟨dt, hdtO, ?_⟩
    intro x hx
    rcases hdtb x hx with hxa | hxb
    · exact Or.inl (mem_tsInsert.mpr (Or.inl hxa))
    · by_cases hxy : x = y
      · exact Or.inl (mem_tsInsert.mpr (Or.inr hxy))
      · have hty : t ≠ y := fun hc => hynotin (hc ▸ ht)
        exact Or.inr (before_cons_lift hxy hty hxb)

theorem depsOrd_insert {w : World} {m : Mold} {l : TaskSet} {t : String}
    {dt : TaskSet} (hN : l.Nodup) (hord : depsOrd w m l) (hftd : ftdO w m t dt)
    (hsub : ∀ x ∈ dt, x ∈ l) :
    (tsInsert l t).Nodup ∧ depsOrd w m (tsInsert l t) ∧
      (∀ x ∈ dt, before (tsInsert l t) x t) := by
  by_cases ht : t ∈ l
  · rw [show tsInsert l t = l by unfold tsInsert; rw [if_pos ht]]
    refine ⟨hN, hord, ?_⟩
    obtain ⟨dt2, hdt2O, hdt2b⟩ := hord t ht
    rw [ftdO_unique hftd hdt2O]
    exact hdt2b
  · have heq : tsInsert l t = l ++ [t] := by unfold tsInsert; rw [if_neg ht]
    have hn2 : (tsInsert l t).Nodup := nodup_tsInsert hN t
    rw [heq] at hn2 ⊢
    refine ⟨hn2, ?_, fun x hx => before_append_new (hsub x hx) ht⟩
    intro t2 ht2
    rcases List.mem_append.mp ht2 with h2 | h2
    · obtain ⟨d2, hO, hb⟩ := hord t2 h2
      exact ⟨d2, hO, fun x hx => before_append_left (hb x hx)⟩
    · obtain rfl : t2 = t := by simpa using h2
      exact ⟨dt, hftd, fun x hx => before_append_new (hsub x hx) ht⟩

/-! ## Lemmas: namespace-qualified names -/

theorem splitSlash_no_slash {t mn rn : String}
    (h : splitSlash t = some (mn, rn)) : '/' ∉ mn.data := by
  unfold splitSlash at h
  by_cases hc : t.data.contains '/'
  · rw [if_pos hc] at h
    simp only [Option.some.injEq, Prod.mk.injEq] at h
    obtain ⟨h1, _⟩ := h
    rw [← h1]
    intro hmem
    have := List.mem_takeWhile_imp hmem
    simp at this
  · rw [if_neg hc] at h
    exact absurd h (by simp)

theorem splitSlash_prefixed {mn : String} (h : '/' ∉ mn.data) (y : String) :
    splitSlash (mn ++ "/" ++ y) = some (mn, y) := by
  have hdata : (mn ++ "/" ++ y).data = mn.data ++ '/' :: y.data := by
    simp [String.data_append]
  unfold splitSlash
  rw [hdata, if_pos (by simp)]
  have hall : ∀ d ∈ mn.data, (d != '/') = true := fun d hd =>
    bne_iff_ne.mpr fun hc => h (hc ▸ hd)
  have hhead : ∀ d, (('/' :: y.data).head? = some d) → (d != '/') = false := by
    intro d hd
    simp only [List.head?_cons, Option.some.injEq] at hd
    rw [← hd]
    simp
  rw [takeWhile_append_all _ hall, takeWhile_head_false _ _ hhead, List.append_nil,
    dropWhile_append_all _ hall, dropWhile_head_false _ _ hhead]
  rfl

theorem prefix_injective (mn : String) :
    Function.Injective (fun x => mn ++ "/" ++ x) := by
  intro a b hab
  have hd : (mn ++ "/" ++ a).data = (mn ++ "/" ++ b).data := congrArg String.data hab
  rw [String.data_append, String.data_append] at hd
  have : a.data = b.data := List.append_cancel_left hd
  have h2 : String.mk a.data = String.mk b.data := by rw [this]
  simpa [stringmk_data] using h2

/-! ## The dependency-resolution soundness invariant -/

theorem fold_sound_aux {w : World} {m : Mold} {f : Nat}
    (hB : ∀ t d, findTaskDeps w f m t = .ok d → d.Nodup ∧ depsOrd w m d) :
    ∀ (ts : List String) (acc r : TaskSet), acc.Nodup → depsOrd w m acc →
      List.foldlM (fun acc t => do
        let d ← findTaskDeps w f m t
        pure (tsInsert (tsExtend acc d) t)) acc ts = .ok r →
      r.Nodup ∧ depsOrd w m r ∧ (∃ ext, r = acc ++ ext) ∧
      (∀ t ∈ ts, t ∈ r ∧ ∃ d, findTaskDeps w f m t = .ok d ∧
        ∀ x ∈ d, before r x t) := by
  intro ts
  induction ts with
  | nil =>
    intro acc r hN hord hr
    rw [List.foldlM_nil] at hr
    obtain rfl := Except.ok.inj hr
    exact ⟨hN, hord, ⟨[], (List.append_nil acc).symm⟩, by simp⟩
  | cons t ts ih =>
    intro acc r hN hord hr
    rw [List.foldlM_cons] at hr
    rw [exbind_ok] at hr
    obtain ⟨acc3, h1, h2⟩ := hr
    rw [exbind_ok] at h1
    obtain ⟨d, hd, hpure⟩ := h1
    have hacc3 : acc3 = tsInsert (tsExtend acc d) t := by
      cases hpure
      rfl
    subst hacc3
    obtain ⟨hdN, hdord⟩ := hB t d hd
    obtain ⟨hexN, hexord⟩ := depsOrd_extend hN hord hdN (fun t2 ht2 => by
      obtain ⟨dt2, hO, hb⟩ := hdord t2 ht2
      exact ⟨dt2, hO, fun x hx => Or.inr (hb x hx)⟩)
    obtain ⟨hinsN, hinsord, hinsb⟩ := depsOrd_insert hexN hexord ⟨f, hd⟩
      (fun x hx => (mem_tsExtend d acc x).mpr (Or.inr hx))
    obtain ⟨rN, rord, ⟨ext, rext⟩, rtail⟩ := ih _ r hinsN hinsord h2
    refine ⟨rN, rord, ?_, ?_⟩
    · obtain ⟨e1, he1⟩ := tsExtend_append d acc
      obtain ⟨e2, he2⟩ := tsInsert_append (tsExtend acc d) t
      exact ⟨e1 ++ (e2 ++ ext), by rw [rext, he2, he1]; simp [List.append_assoc]⟩
    · intro t2 ht2
      rcases List.mem_cons.mp ht2 with rfl | ht2
      · have htmem : t2 ∈ tsInsert (tsExtend acc d) t2 := mem_tsInsert.mpr (Or.inr rfl)
        refine ⟨by rw [rext]; exact List.mem_append_left _ htmem, d, hd, ?_⟩
        intro x hx
        rw [rext]
        exact before_append_left (hinsb x hx)
      · exact rtail t2 ht2

/-- The joint soundness invariant of `find_all_dependencies` and
`find_task_dependencies`: results are duplicate-free and, within any
result, every name is preceded by each member of its own dependency set. -/
theorem deps_sound (w : World) : ∀ F : Nat,
    (∀ m ts r, findAllDeps w F m ts = .ok r →
      r.Nodup ∧ depsOrd w m r ∧
      ∀ t ∈ ts, t ∈ r ∧ ∃ d, ftdO w m t d ∧ ∀ x ∈ d, before r x t) ∧
    (∀ m t d, findTaskDeps w F m t = .ok d → d.Nodup ∧ depsOrd w m d) := by
  intro F
  induction F using Nat.strong_induction_on with
  | _ F ih =>
  cases F with
  | zero =>
    constructor
    · intro m ts r h
      exact absurd h (by rw [findAllDeps]; simp)
    · intro m t d h
      exact absurd h (by rw [findTaskDeps]; simp)
  | succ f =>
    have SA := (ih f (Nat.lt_succ_self f)).1
    have SB := (ih f (Nat.lt_succ_self f)).2
    constructor
    · intro m ts r h
      rw [findAllDeps_succ] at h
      obtain ⟨rN, rord, _, rtail⟩ := fold_sound_aux (fun t d => SB m t d) ts [] r
        List.nodup_nil (fun t ht => absurd ht (List.not_mem_nil t)) h
      refine ⟨rN, rord, ?_⟩
      intro t ht
      obtain ⟨htr, d, hd, hb⟩ := rtail t ht
      exact ⟨htr, d, ⟨f, hd⟩, hb⟩
    · intro m t d h
      cases hs : splitSlash t with
      | none =>
        rw [findTaskDeps_succ_none hs, exbind_ok] at h
        obtain ⟨recipe, _, h2⟩ := h
        obtain ⟨hN, hord, _⟩ := SA m _ d h2
        exact ⟨hN, hord⟩
      | some p =>
        obtain ⟨mn, rn⟩ := p
        have hmn : '/' ∉ mn.data := splitSlash_no_slash hs
        rw [findTaskDeps_succ_some hs, exbind_ok] at h
        obtain ⟨module, hopen, h2⟩ := h
        rw [exbind_ok] at h2
        obtain ⟨deps, hdeps, h3⟩ := h2
        rw [exbind_ok] at h3
        obtain ⟨full, hfull, hpure⟩ := h3
        have hdval : d = tsOf (full.map (fun x => mn ++ "/" ++ x)) := by
          cases hpure
          rfl
        subst hdval
        obtain ⟨hfullN, hfullord, _⟩ := SA module deps full hfull
        have hinj := prefix_injective mn
        have hmapN : (full.map (fun x => mn ++ "/" ++ x)).Nodup := hfullN.map hinj
        have hts : tsOf (full.map (fun x => mn ++ "/" ++ x)) =
            full.map (fun x => mn ++ "/" ++ x) := tsOf_eq_self hmapN
        rw [hts]
        refine ⟨hmapN, ?_⟩
        intro t2 ht2
        obtain ⟨y, hy, rfl⟩ := List.mem_map.mp ht2
        obtain ⟨dy, hdyO, hdyb⟩ := hfullord y hy
        have hdysub : ∀ s ∈ dy, s ∈ full := fun s hsx => (hdyb s hsx).1
        obtain ⟨F2, cy, hcy⟩ : ∃ F2 cy, findAllDeps w (F2 + 1) module dy = .ok cy :=
          findAllDeps_exists (fun s hsx => by
            obtain ⟨ds, hdsO, _⟩ := hfullord s (hdysub s hsx)
            exact ⟨ds, hdsO⟩)
        obtain ⟨fdy, hfdy⟩ := hdyO
        have hG1 : f ≤ max f (max fdy (F2 + 1)) := Nat.le_max_left _ _
        have hG2 : fdy ≤ max f (max fdy (F2 + 1)) :=
          le_trans (Nat.le_max_left _ _) (Nat.le_max_right _ _)
        have hG3 : F2 + 1 ≤ max f (max fdy (F2 + 1)) :=
          le_trans (Nat.le_max_right _ _) (Nat.le_max_right _ _)
        have hopenG := openModule_mono hG1 hopen
        have hdyG := findTaskDeps_mono hG2 hfdy
        have hcyG := findAllDeps_mono hG3 hcy
        have hsplit2 : splitSlash (mn ++ "/" ++ y) = some (mn, y) :=
          splitSlash_prefixed hmn y
        have hres : findTaskDeps w (max f (max fdy (F2 + 1)) + 1) m (mn ++ "/" ++ y) =
            .ok (tsOf (cy.map (fun x => mn ++ "/" ++ x))) := by
          rw [findTaskDeps_succ_some hsplit2]
          rw [exbind_ok]
          refine ⟨module, hopenG, ?_⟩
          rw [exbind_ok]
          refine ⟨dy, hdyG, ?_⟩
          rw [exbind_ok]
          exact ⟨cy, hcyG, rfl⟩
        refine ⟨tsOf (cy.map (fun x => mn ++ "/" ++ x)), ⟨_, hres⟩, ?_⟩
        intro x2 hx2
        rw [mem_tsOf] at hx2
        obtain ⟨x, hx, rfl⟩ := List.mem_map.mp hx2
        refine before_map hinj ?_
        rcases findAllDeps_mem hcy x hx with hxdy | ⟨s, hsdy, ds2, hds2, hxds2⟩
        · exact hdyb x hxdy
        · have hsfull : s ∈ full := hdysub s hsdy
          obtain ⟨ds3, hds3O, hds3b⟩ := hfullord s hsfull
          have hdd : ds2 = ds3 := ftdO_unique ⟨F2, hds2⟩ hds3O
          rw [hdd] at hxds2
          exact before_trans (hds3b x hxds2) (hdyb s hsdy)

/-! ## Concrete fixtures and claim theorems: dependency resolution -/

/-- Moldfile declaring `A {deps: [B]}` and `B`. -/
def mfAB : Moldfile :=
  { version := none, recipe_dir := "./mold", includes := []
    recipes := [("A", Recipe.command base0 ["B"] ["echo", "a"]),
                ("B", Recipe.command base0 [] ["echo", "hi"])]
    runtimes := [], vars := [], environments := [] }

def moldAB : Mold :=
  { file := "/r/moldfile", dir := "/r/mold", root_dir := "/r"
    clone_dir := "/r/mold/.clones", script_dir := "/r/mold/.scripts", envs := []
    data := mfAB }

/-- A world with no discoverable moldfiles (none are needed for `moldAB`). -/
def emptyWorld : World := fun _ _ => none

/-- C3: `find_all_dependencies` returns an ordered deduplicated set in
first-insertion order in which each requested name appears after every
member of its (transitive) dependency set; a failed lookup is the
RecipeNotFound error; resolving `["A"]` against `A {requires:[B]}, B`
yields `[B, A]`. -/
theorem find_all_dependencies_order :
    (∀ (w : World) (f : Nat) (m : Mold) (targets res : TaskSet),
      findAllDeps w f m targets = .ok res →
      res.Nodup ∧
      ∀ t ∈ targets, t ∈ res ∧
        ∀ (f2 : Nat) (d : TaskSet), findTaskDeps w f2 m t = .ok d →
          ∀ x ∈ d, x ∈ res ∧ before res x t) ∧
    (∀ (w : World) (f : Nat) (m : Mold) (target : String),
      splitSlash target = none → m.data.recipes.lookup target = none →
      findTaskDeps w (f + 1) m target = .error ("RecipeNotFound: " ++ target)) ∧
    findAllDeps emptyWorld 6 moldAB ["A"] = .ok ["B", "A"] := by
  refine ⟨?_, ?_, rfl⟩
  · intro w f m targets res h
    cases f with
    | zero => exact absurd h (by rw [findAllDeps]; simp)
    | succ f =>
      obtain ⟨hN, _, htargets⟩ := (deps_sound w (f + 1)).1 m targets res h
      refine ⟨hN, ?_⟩
      intro t ht
      obtain ⟨htr, d0, hd0O, hb0⟩ := htargets t ht
      refine ⟨htr, ?_⟩
      intro f2 d hd x hx
      have hdd : d = d0 := ftdO_unique ⟨f2, hd⟩ hd0O
      subst hdd
      exact ⟨(hb0 x hx).1, hb0 x hx⟩
  · intro w f m target hs hlook
    rw [findTaskDeps_succ_none hs]
    show (m.find_recipe target >>= fun recipe => findAllDeps w f m (tsOf recipe.deps)) = _
    unfold Mold.find_recipe
    rw [hlook]
    rfl

/-- Witness for C3: the order invariant instantiated at the concrete
`A {requires:[B]}, B` example. -/
theorem find_all_dependencies_order_witness :
    (["B", "A"] : TaskSet).Nodup ∧ "A" ∈ (["B", "A"] : TaskSet) :=
  ⟨(find_all_dependencies_order.1 emptyWorld 6 moldAB ["A"] ["B", "A"] rfl).1,
   ((find_all_dependencies_order.1 emptyWorld 6 moldAB ["A"] ["B", "A"] rfl).2
      "A" (by simp)).1⟩

/-- The module moldfile of the C1 scenario: `build {requires:[lint]}` and
`lint`, to be reached through the parent's Module recipe `mod`. -/
def childC1 : Mold :=
  { file := "/p/mold/.clones/host/child.git@master/moldfile", dir := "/c/mold"
    root_dir := "/c", clone_dir := "/c/mold/.clones"
    script_dir := "/c/mold/.scripts", envs := []
    data :=
      { version := none, recipe_dir := "./mold", includes := []
        recipes := [("build", Recipe.command base0 ["lint"] ["make"]),
                    ("lint", Recipe.command base0 [] ["make", "lint"])]
        runtimes := [], vars := [], environments := [] } }

/-- A parent moldfile whose recipe `mod` is a Module pointing at
`childC1`. -/
def mfC1Parent : Moldfile :=
  { version := none, recipe_dir := "./mold", includes := []
    recipes := [("mod", Recipe.module base0 "host/child.git" "master" none)]
    runtimes := [], vars := [], environments := [] }

def parentC1 : Mold :=
  { file := "/p/moldfile", dir := "/p/mold", root_dir := "/p"
    clone_dir := "/p/mold/.clones", script_dir := "/p/mold/.scripts", envs := []
    data := mfC1Parent }

/-- The world in which the `mod` module's clone folder discovers
`childC1`. -/
def worldC1 : World := fun dir fl =>
  if dir = "/p/mold/.clones/host/child.git@master" ∧ fl = none then some childC1
  else none

/-- Counterexample to C1 as stated: `merge_absent` (the merge used for
includes) attaches no namespace prefix — the merged set has no `mod/build`
entry, and the child's `build` recipe keeps its name and its unprefixed
requires list `["lint"]`. -/
theorem namespace_prefix_counterexample :
    (mfC1Parent.merge_absent childC1).recipes.lookup "mod/build" = none ∧
    ((mfC1Parent.merge_absent childC1).recipes.lookup "build").map Recipe.deps =
      some ["lint"] :=
  ⟨rfl, rfl⟩

/-- C1 (amended): the namespace prefix is attached at dependency-resolution
time, not at merge time — `find_task_dependencies` on `module/recipe`
resolves the recipe inside the opened module and re-qualifies every
resulting dependency with the module prefix; concretely, resolving
`mod/build` where module `mod` declares `build {requires:[lint]}` yields
`mod/lint`, and the full resolution order is `[mod/lint, mod/build]`. -/
theorem namespace_prefix_amended :
    (∀ (w : World) (f : Nat) (m module : Mold) (target mn rn : String)
        (deps full : TaskSet),
      splitSlash target = some (mn, rn) →
      openModule w f m mn = .ok module →
      findTaskDeps w f module rn = .ok deps →
      findAllDeps w f module deps = .ok full →
      findTaskDeps w (f + 1) m target =
        .ok (tsOf (full.map (fun x => mn ++ "/" ++ x)))) ∧
    findTaskDeps worldC1 10 parentC1 "mod/build" = .ok ["mod/lint"] ∧
    findAllDeps worldC1 10 parentC1 ["mod/build"] = .ok ["mod/lint", "mod/build"] := by
  refine ⟨?_, rfl, rfl⟩
  intro w f m module target mn rn deps full hs ho hd hf
  rw [findTaskDeps_succ_some hs]
  rw [exbind_ok]
  refine ⟨module, ho, ?_⟩
  rw [exbind_ok]
  refine ⟨deps, hd, ?_⟩
  rw [exbind_ok]
  exact ⟨full, hf, rfl⟩

/-- Witness for C1 (amended) at the concrete module scenario. -/
theorem namespace_prefix_amended_witness :
    findTaskDeps worldC1 10 parentC1 "mod/build" =
      .ok (tsOf ((["lint"] : TaskSet).map (fun x => "mod" ++ "/" ++ x))) :=
  namespace_prefix_amended.1 worldC1 9 parentC1 (childC1.adopt parentC1)
    "mod/build" "mod" "build" ["lint"] ["lint"] rfl rfl rfl rfl

/-! ## Fuel adequacy of the expression parser

The Rust parser recurses without fuel; the embedding's fuel is an artifact:
results of all five parsers are stable once the fuel reaches
`5 * tokens + 5` (`parseExpr_fuel`), and `compile` never reports the
internal fuel error (`compile_no_fuel_error`). -/

theorem exbind_ok_eval {α β : Type} (a : α) (g : α → Except String β) :
    (Except.ok a >>= g) = g a := rfl

theorem exbind_error_eval {α β : Type} (e : String) (g : α → Except String β) :
    ((Except.error e : Except String α) >>= g) = .error e := rfl

theorem parse_rest_le : ∀ f : Nat,
    (∀ ts e rest, parseExpr f ts = .ok (e, rest) → rest.length ≤ ts.length) ∧
    (∀ ts e rest, parseOr f ts = .ok (e, rest) → rest.length ≤ ts.length) ∧
    (∀ ts e rest, parseAnd f ts = .ok (e, rest) → rest.length ≤ ts.length) ∧
    (∀ ts e rest, parseNot f ts = .ok (e, rest) → rest.length ≤ ts.length) ∧
    (∀ ts e rest, parseAtom f ts = .ok (e, rest) → rest.length ≤ ts.length) := by
  intro f
  induction f with
  | zero =>
    refine ⟨?_, ?_, ?_, ?_, ?_⟩ <;>
      (intro ts e rest h;
       exact absurd h (by simp [parseExpr, parseOr, parseAnd, parseNot, parseAtom]))
  | succ f ih =>
    obtain ⟨ihE, ihO, ihA, ihN, ihT⟩ := ih
    have hOr : ∀ ts e rest, parseOr (f + 1) ts = .ok (e, rest) →
        rest.length ≤ ts.length := by
      intro ts e rest h
      rw [parseOr] at h
      cases hand : parseAnd f ts with
      | error err => rw [hand, exbind_error_eval] at h; exact absurd h (by simp)
      | ok p =>
        obtain ⟨lhs, rest1⟩ := p
        rw [hand, exbind_ok_eval] at h
        have hr1 : rest1.length ≤ ts.length := ihA ts lhs rest1 hand
        cases rest1 with
        | nil =>
          have hrest : ([] : List Token) = rest := congrArg Prod.snd (Except.ok.inj h)
          rw [← hrest]
          simp
        | cons tk rest2 =>
          cases tk with
          | or =>
            simp only [] at h
            cases hexp : parseExpr f rest2 with
            | error err => rw [hexp, exbind_error_eval] at h; exact absurd h (by simp)
            | ok q =>
              obtain ⟨rhs, rest3⟩ := q
              rw [hexp, exbind_ok_eval] at h
              have hrest : rest3 = rest := congrArg Prod.snd (Except.ok.inj h)
              have hle := ihE rest2 rhs rest3 hexp
              rw [← hrest]
              simp only [List.length_cons] at hr1
              omega
          | and =>
            have hrest : _ = rest := congrArg Prod.snd (Except.ok.inj h)
            rw [← hrest]
            exact hr1
          | not =>
            have hrest : _ = rest := congrArg Prod.snd (Except.ok.inj h)
            rw [← hrest]
            exact hr1
          | pal =>
            have hrest : _ = rest := congrArg Prod.snd (Except.ok.inj h)
            rw [← hrest]
            exact hr1
          | par =>
            have hrest : _ = rest := congrArg Prod.snd (Except.ok.inj h)
            rw [← hrest]
            exact hr1
          | wild =>
            have hrest : _ = rest := congrArg Prod.snd (Except.ok.inj h)
            rw [← hrest]
            exact hr1
          | name s =>
            have hrest : _ = rest := congrArg Prod.snd (Except.ok.inj h)
            rw [← hrest]
            exact hr1
    have hAnd : ∀ ts e rest, parseAnd (f + 1) ts = .ok (e, rest) →
        rest.length ≤ ts.length := by
      intro ts e rest h
      rw [parseAnd] at h
      cases hand : parseNot f ts with
      | error err => rw [hand, exbind_error_eval] at h; exact absurd h (by simp)
      | ok p =>
        obtain ⟨lhs, rest1⟩ := p
        rw [hand, exbind_ok_eval] at h
        have hr1 : rest1.length ≤ ts.length := ihN ts lhs rest1 hand
        cases rest1 with
        | nil =>
          have hrest : ([] : List Token) = rest := congrArg Prod.snd (Except.ok.inj h)
          rw [← hrest]
          simp
        | cons tk rest2 =>
          cases tk with
          | and =>
            simp only [] at h
            cases hexp : parseExpr f rest2 with
            | error err => rw [hexp, exbind_error_eval] at h; exact absurd h (by simp)
            | ok q =>
              obtain ⟨rhs, rest3⟩ := q
              rw [hexp, exbind_ok_eval] at h
              have hrest : rest3 = rest := congrArg Prod.snd (Except.ok.inj h)
              have hle := ihE rest2 rhs rest3 hexp
              rw [← hrest]
              simp only [List.length_cons] at hr1
              omega
          | or =>
            have hrest : _ = rest := congrArg Prod.snd (Except.ok.inj h)
            rw [← hrest]
            exact hr1
          | not =>
            have hrest : _ = rest := congrArg Prod.snd (Except.ok.inj h)
            rw [← hrest]
            exact hr1
          | pal =>
            have hrest : _ = rest := congrArg Prod.snd (Except.ok.inj h)
            rw [← hrest]
            exact hr1
          | par =>
            have hrest : _ = rest := congrArg Prod.snd (Except.ok.inj h)
            rw [← hrest]
            exact hr1
          | wild =>
            have hrest : _ = rest := congrArg Prod.snd (Except.ok.inj h)
            rw [← hrest]
            exact hr1
          | name s =>
            have hrest : _ = rest := congrArg Prod.snd (Except.ok.inj h)
            rw [← hrest]
            exact hr1
    have hAtom : ∀ ts e rest, parseAtom (f + 1) ts = .ok (e, rest) →
        rest.length ≤ ts.length := by
      intro ts e rest h
      cases ts with
      | nil => exact absurd h (by simp [parseAtom])
      | cons tk ts2 =>
        cases tk with
        | pal =>
          simp only [parseAtom] at h
          cases hexp : parseExpr f ts2 with
          | error err => rw [hexp, exbind_error_eval] at h; exact absurd h (by simp)
          | ok q =>
            obtain ⟨inner, rest2⟩ := q
            rw [hexp, exbind_ok_eval] at h
            have hr2 : rest2.length ≤ ts2.length := ihE ts2 inner rest2 hexp
            cases rest2 with
            | nil => exact absurd h (by simp)
            | cons tk2 rest3 =>
              cases tk2 with
              | par =>
                have hrest : rest3 = rest := congrArg Prod.snd (Except.ok.inj h)
                rw [← hrest]
                simp only [List.length_cons] at hr2 ⊢
                omega
              | and => exact absurd h (by simp)
              | or => exact absurd h (by simp)
              | not => exact absurd h (by simp)
              | pal => exact absurd h (by simp)
              | wild => exact absurd h (by simp)
              | name s => exact absurd h (by simp)
        | name s =>
          simp only [parseAtom] at h
          have hrest : ts2 = rest := congrArg Prod.snd (Except.ok.inj h)
          rw [← hrest]
          simp
        | wild =>
          simp only [parseAtom] at h
          have hrest : ts2 = rest := congrArg Prod.snd (Except.ok.inj h)
          rw [← hrest]
          simp
        | and => exact absurd h (by simp [parseAtom])
        | or => exact absurd h (by simp [parseAtom])
        | not => exact absurd h (by simp [parseAtom])
        | par => exact absurd h (by simp [parseAtom])
    have hNot : ∀ ts e rest, parseNot (f + 1) ts = .ok (e, rest) →
        rest.length ≤ ts.length := by
      intro ts e rest h
      cases ts with
      | nil =>
        simp only [parseNot] at h
        exact ihT [] e rest h
      | cons tk ts2 =>
        cases tk with
        | not =>
          simp only [parseNot] at h
          cases hat : parseAtom f ts2 with
          | error err => rw [hat, exbind_error_eval] at h; exact absurd h (by simp)
          | ok q =>
            obtain ⟨inner, rest2⟩ := q
            rw [hat, exbind_ok_eval] at h
            have hrest : rest2 = rest := congrArg Prod.snd (Except.ok.inj h)
            have hle := ihT ts2 inner rest2 hat
            rw [← hrest]
            simp only [List.length_cons]
            omega
        | and => simp only [parseNot] at h; exact ihT _ e rest h
        | or => simp only [parseNot] at h; exact ihT _ e rest h
        | pal => simp only [parseNot] at h; exact ihT _ e rest h
        | par => simp only [parseNot] at h; exact ihT _ e rest h
        | wild => simp only [parseNot] at h; exact ihT _ e rest h
        | name s => simp only [parseNot] at h; exact ihT _ e rest h
    refine ⟨?_, hOr, hAnd, hNot, hAtom⟩
    intro ts e rest h
    rw [parseExpr] at h
    exact ihO ts e rest h

theorem parse_fuel_step : ∀ f : Nat,
    (∀ ts, parseExpr f ts ≠ .error "fuel" → parseExpr (f + 1) ts = parseExpr f ts) ∧
    (∀ ts, parseOr f ts ≠ .error "fuel" → parseOr (f + 1) ts = parseOr f ts) ∧
    (∀ ts, parseAnd f ts ≠ .error "fuel" → parseAnd (f + 1) ts = parseAnd f ts) ∧
    (∀ ts, parseNot f ts ≠ .error "fuel" → parseNot (f + 1) ts = parseNot f ts) ∧
    (∀ ts, parseAtom f ts ≠ .error "fuel" → parseAtom (f + 1) ts = parseAtom f ts) := by
  intro f
  induction f with
  | zero =>
    refine ⟨?_, ?_, ?_, ?_, ?_⟩ <;>
      (intro ts hne; exact absurd (by simp [parseExpr, parseOr, parseAnd, parseNot, parseAtom]) hne)
  | succ f ih =>
    obtain ⟨ihE, ihO, ihA, ihN, ihT⟩ := ih
    have hT : ∀ ts, parseAtom (f + 1) ts ≠ .error "fuel" →
        parseAtom (f + 2) ts = parseAtom (f + 1) ts := by
      intro ts hne
      cases ts with
      | nil => rfl
      | cons tk ts2 =>
        cases tk with
        | pal =>
          simp only [parseAtom] at hne ⊢
          cases hexp : parseExpr f ts2 with
          | error err =>
            rw [hexp, exbind_error_eval] at hne
            rw [exbind_error_eval]
            by_cases herr : err = "fuel"
            · exact absurd (by rw [herr]) hne
            · have h3 : parseExpr (f + 1) ts2 = .error err :=
                (ihE ts2 (by rw [hexp]; intro hc; exact herr (Except.error.inj hc))).trans hexp
              rw [h3, exbind_error_eval]
          | ok q =>
            have h3 : parseExpr (f + 1) ts2 = .ok q :=
              (ihE ts2 (by rw [hexp]; simp)).trans hexp
            rw [h3]
        | name s => rfl
        | wild => rfl
        | and => rfl
        | or => rfl
        | not => rfl
        | par => rfl
    have hN : ∀ ts, parseNot (f + 1) ts ≠ .error "fuel" →
        parseNot (f + 2) ts = parseNot (f + 1) ts := by
      intro ts hne
      cases ts with
      | nil =>
        simp only [parseNot] at hne ⊢
        exact ihT [] hne
      | cons tk ts2 =>
        cases tk with
        | not =>
          simp only [parseNot] at hne ⊢
          cases hat : parseAtom f ts2 with
          | error err =>
            rw [hat, exbind_error_eval] at hne
            rw [exbind_error_eval]
            by_cases herr : err = "fuel"
            · exact absurd (by rw [herr]) hne
            · have h3 : parseAtom (f + 1) ts2 = .error err :=
                (ihT ts2 (by rw [hat]; intro hc; exact herr (Except.error.inj hc))).trans hat
              rw [h3, exbind_error_eval]
          | ok q =>
            have h3 : parseAtom (f + 1) ts2 = .ok q :=
              (ihT ts2 (by rw [hat]; simp)).trans hat
            rw [h3]
        | and => simp only [parseNot] at hne ⊢; exact ihT _ hne
        | or => simp only [parseNot] at hne ⊢; exact ihT _ hne
        | pal => simp only [parseNot] at hne ⊢; exact ihT _ hne
        | par => simp only [parseNot] at hne ⊢; exact ihT _ hne
        | wild => simp only [parseNot] at hne ⊢; exact ihT _ hne
        | name s => simp only [parseNot] at hne ⊢; exact ihT _ hne
    have hA : ∀ ts, parseAnd (f + 1) ts ≠ .error "fuel" →
        parseAnd (f + 2) ts = parseAnd (f + 1) ts := by
      intro ts hne
      simp only [parseAnd] at hne ⊢
      cases hand : parseNot f ts with
      | error err =>
        rw [hand, exbind_error_eval] at hne
        rw [exbind_error_eval]
        by_cases herr : err = "fuel"
        · exact absurd (by rw [herr]) hne
        · have h2 : parseNot (f + 1) ts = .error err :=
            (ihN ts (by rw [hand]; intro hc; exact herr (Except.error.inj hc))).trans hand
          rw [h2, exbind_error_eval]
      | ok p =>
        have h2 : parseNot (f + 1) ts = .ok p :=
          (ihN ts (by rw [hand]; simp)).trans hand
        obtain ⟨lhs, rest1⟩ := p
        rw [hand, exbind_ok_eval] at hne
        rw [exbind_ok_eval]
        rw [h2, exbind_ok_eval]
        cases rest1 with
        | nil => rfl
        | cons tk rest2 =>
          cases tk with
          | and =>
            simp only [] at hne ⊢
            cases hexp : parseExpr f rest2 with
            | error err2 =>
              rw [hexp, exbind_error_eval] at hne
              rw [exbind_error_eval]
              by_cases herr : err2 = "fuel"
              · exact absurd (by rw [herr]) hne
              · have h3 : parseExpr (f + 1) rest2 = .error err2 :=
                  (ihE rest2 (by rw [hexp]; intro hc; exact herr (Except.error.inj hc))).trans hexp
                rw [h3, exbind_error_eval]
            | ok q =>
              have h3 : parseExpr (f + 1) rest2 = .ok q :=
                (ihE rest2 (by rw [hexp]; simp)).trans hexp
              rw [h3]
          | or => rfl
          | not => rfl
          | pal => rfl
          | par => rfl
          | wild => rfl
          | name s => rfl
    have hO : ∀ ts, parseOr (f + 1) ts ≠ .error "fuel" →
        parseOr (f + 2) ts = parseOr (f + 1) ts := by
      intro ts hne
      simp only [parseOr] at hne ⊢
      cases hand : parseAnd f ts with
      | error err =>
        rw [hand, exbind_error_eval] at hne
        rw [exbind_error_eval]
        by_cases herr : err = "fuel"
        · exact absurd (by rw [herr]) hne
        · have h2 : parseAnd (f + 1) ts = .error err :=
            (ihA ts (by rw [hand]; intro hc; exact herr (Except.error.inj hc))).trans hand
          rw [h2, exbind_error_eval]
      | ok p =>
        have h2 : parseAnd (f + 1) ts = .ok p :=
          (ihA ts (by rw [hand]; simp)).trans hand
        obtain ⟨lhs, rest1⟩ := p
        rw [hand, exbind_ok_eval] at hne
        rw [exbind_ok_eval]
        rw [h2, exbind_ok_eval]
        cases rest1 with
        | nil => rfl
        | cons tk rest2 =>
          cases tk with
          | or =>
            simp only [] at hne ⊢
            cases hexp : parseExpr f rest2 with
            | error err2 =>
              rw [hexp, exbind_error_eval] at hne
              rw [exbind_error_eval]
              by_cases herr : err2 = "fuel"
              · exact absurd (by rw [herr]) hne
              · have h3 : parseExpr (f + 1) rest2 = .error err2 :=
                  (ihE rest2 (by rw [hexp]; intro hc; exact herr (Except.error.inj hc))).trans hexp
                rw [h3, exbind_error_eval]
            | ok q =>
              have h3 : parseExpr (f + 1) rest2 = .ok q :=
                (ihE rest2 (by rw [hexp]; simp)).trans hexp
              rw [h3]
          | and => rfl
          | not => rfl
          | pal => rfl
          | par => rfl
          | wild => rfl
          | name s => rfl
    refine ⟨?_, hO, hA, hN, hT⟩
    intro ts hne
    simp only [parseExpr] at hne ⊢
    exact ihO ts hne

theorem parseExpr_stable {f g : Nat} (h : f ≤ g) {ts : List Token}
    (hne : parseExpr f ts ≠ .error "fuel") : parseExpr g ts = parseExpr f ts := by
  induction g, h using Nat.le_induction with
  | base => rfl
  | succ m hm ih =>
    exact ((parse_fuel_step m).1 ts (fun hc => hne (ih.symm.trans hc))).trans ih

theorem parse_fuel_enough : ∀ n : Nat,
    (∀ ts : List Token, ts.length ≤ n → parseAtom (5 * n + 1) ts ≠ .error "fuel") ∧
    (∀ ts : List Token, ts.length ≤ n → parseNot (5 * n + 2) ts ≠ .error "fuel") ∧
    (∀ ts : List Token, ts.length ≤ n → parseAnd (5 * n + 3) ts ≠ .error "fuel") ∧
    (∀ ts : List Token, ts.length ≤ n → parseOr (5 * n + 4) ts ≠ .error "fuel") ∧
    (∀ ts : List Token, ts.length ≤ n → parseExpr (5 * n + 5) ts ≠ .error "fuel") := by
  intro n
  induction n using Nat.strong_induction_on with
  | _ n ih =>
  have hT : ∀ ts : List Token, ts.length ≤ n → parseAtom (5 * n + 1) ts ≠ .error "fuel" := by
    intro ts hlen
    cases ts with
    | nil => simp [parseAtom]
    | cons tk ts2 =>
      cases tk with
      | pal =>
        simp only [parseAtom]
        have hn1 : 1 ≤ n := by simp only [List.length_cons] at hlen; omega
        have hr2 : ts2.length ≤ n - 1 := by simp only [List.length_cons] at hlen; omega
        have hE1 : parseExpr (5 * (n - 1) + 5) ts2 ≠ .error "fuel" :=
          (ih (n - 1) (by omega)).2.2.2.2 ts2 hr2
        have heq : 5 * (n - 1) + 5 = 5 * n := by omega
        rw [heq] at hE1
        cases hexp : parseExpr (5 * n) ts2 with
        | error err =>
          rw [exbind_error_eval]
          intro hc
          exact hE1 (by rw [hexp, Except.error.inj hc])
        | ok q =>
          obtain ⟨inner, rest2⟩ := q
          rw [exbind_ok_eval]
          cases rest2 with
          | nil => simp
          | cons tk2 rest3 =>
            cases tk2 with
            | par => exact fun hc => Except.noConfusion hc
            | pal => simp
            | and => simp
            | or => simp
            | not => simp
            | wild => simp
            | name s => simp
      | name s => simp only [parseAtom]; exact fun hc => Except.noConfusion hc
      | wild => simp only [parseAtom]; exact fun hc => Except.noConfusion hc
      | and => simp [parseAtom]
      | or => simp [parseAtom]
      | not => simp [parseAtom]
      | par => simp [parseAtom]
  have hN : ∀ ts : List Token, ts.length ≤ n → parseNot (5 * n + 2) ts ≠ .error "fuel" := by
    intro ts hlen
    have e : 5 * n + 2 = 5 * n + 1 + 1 := by omega
    rw [e]
    cases ts with
    | nil =>
      simp only [parseNot]
      exact hT [] (by simp)
    | cons tk ts2 =>
      have hlen2 : ts2.length ≤ n := by simp only [List.length_cons] at hlen; omega
      cases tk with
      | not =>
        simp only [parseNot]
        have hTa : parseAtom (5 * n + 1) ts2 ≠ .error "fuel" := hT ts2 hlen2
        cases hat : parseAtom (5 * n + 1) ts2 with
        | error err =>
          rw [exbind_error_eval]
          intro hc
          exact hTa (by rw [hat, Except.error.inj hc])
        | ok q => rw [exbind_ok_eval]; exact fun hc => Except.noConfusion hc
      | and => simp only [parseNot]; exact hT _ hlen
      | or => simp only [parseNot]; exact hT _ hlen
      | pal => simp only [parseNot]; exact hT _ hlen
      | par => simp only [parseNot]; exact hT _ hlen
      | wild => simp only [parseNot]; exact hT _ hlen
      | name s => simp only [parseNot]; exact hT _ hlen
  have hA : ∀ ts : List Token, ts.length ≤ n → parseAnd (5 * n + 3) ts ≠ .error "fuel" := by
    intro ts hlen
    have e : 5 * n + 3 = 5 * n + 2 + 1 := by omega
    rw [e, parseAnd]
    cases hnot : parseNot (5 * n + 2) ts with
    | error err =>
      rw [exbind_error_eval]
      intro hc
      exact hN ts hlen (by rw [hnot, Except.error.inj hc])
    | ok p =>
      obtain ⟨lhs, rest1⟩ := p
      rw [exbind_ok_eval]
      cases rest1 with
      | nil => exact fun hc => Except.noConfusion hc
      | cons tk rest2 =>
        cases tk with
        | and =>
          have hrle := (parse_rest_le (5 * n + 2)).2.2.2.1 ts lhs (Token.and :: rest2) hnot
          have hn1 : 1 ≤ n := by simp only [List.length_cons] at hrle; omega
          have hr2 : rest2.length ≤ n - 1 := by simp only [List.length_cons] at hrle; omega
          have hE1 : parseExpr (5 * (n - 1) + 5) rest2 ≠ .error "fuel" :=
            (ih (n - 1) (by omega)).2.2.2.2 rest2 hr2
          have heq : 5 * (n - 1) + 5 = 5 * n := by omega
          rw [heq] at hE1
          have hstable : parseExpr (5 * n + 2) rest2 = parseExpr (5 * n) rest2 :=
            parseExpr_stable (by omega) hE1
          simp only []
          cases hexp : parseExpr (5 * n + 2) rest2 with
          | error err2 =>
            rw [exbind_error_eval]
            intro hc
            exact hE1 (by rw [← hstable, hexp, Except.error.inj hc])
          | ok q => rw [exbind_ok_eval]; exact fun hc => Except.noConfusion hc
        | or => exact fun hc => Except.noConfusion hc
        | not => exact fun hc => Except.noConfusion hc
        | pal => exact fun hc => Except.noConfusion hc
        | par => exact fun hc => Except.noConfusion hc
        | wild => exact fun hc => Except.noConfusion hc
        | name s => exact fun hc => Except.noConfusion hc
  have hO : ∀ ts : List Token, ts.length ≤ n → parseOr (5 * n + 4) ts ≠ .error "fuel" := by
    intro ts hlen
    have e : 5 * n + 4 = 5 * n + 3 + 1 := by omega
    rw [e, parseOr]
    cases hand : parseAnd (5 * n + 3) ts with
    | error err =>
      rw [exbind_error_eval]
      intro hc
      exact hA ts hlen (by rw [hand, Except.error.inj hc])
    | ok p =>
      obtain ⟨lhs, rest1⟩ := p
      rw [exbind_ok_eval]
      cases rest1 with
      | nil => exact fun hc => Except.noConfusion hc
      | cons tk rest2 =>
        cases tk with
        | or =>
          have hrle := (parse_rest_le (5 * n + 3)).2.2.1 ts lhs (Token.or :: rest2) hand
          have hn1 : 1 ≤ n := by simp only [List.length_cons] at hrle; omega
          have hr2 : rest2.length ≤ n - 1 := by simp only [List.length_cons] at hrle; omega
          have hE1 : parseExpr (5 * (n - 1) + 5) rest2 ≠ .error "fuel" :=
            (ih (n - 1) (by omega)).2.2.2.2 rest2 hr2
          have heq : 5 * (n - 1) + 5 = 5 * n := by omega
          rw [heq] at hE1
          have hstable : parseExpr (5 * n + 3) rest2 = parseExpr (5 * n) rest2 :=
            parseExpr_stable (by omega) hE1
          simp only []
          cases hexp : parseExpr (5 * n + 3) rest2 with
          | error err2 =>
            rw [exbind_error_eval]
            intro hc
            exact hE1 (by rw [← hstable, hexp, Except.error.inj hc])
          | ok q => rw [exbind_ok_eval]; exact fun hc => Except.noConfusion hc
        | and => exact fun hc => Except.noConfusion hc
        | not => exact fun hc => Except.noConfusion hc
        | pal => exact fun hc => Except.noConfusion hc
        | par => exact fun hc => Except.noConfusion hc
        | wild => exact fun hc => Except.noConfusion hc
        | name s => exact fun hc => Except.noConfusion hc
  refine ⟨hT, hN, hA, hO, ?_⟩
  intro ts hlen
  have e : 5 * n + 5 = 5 * n + 4 + 1 := by omega
  rw [e, parseExpr]
  exact hO ts hlen

/-- The fuel in `parseExpr` is an artifact of the embedding: at or beyond the
`exprFuel` budget used by `parse`, the result no longer depends on the fuel. -/
theorem parseExpr_fuel {ts : List Token} {f : Nat} (h : exprFuel ts ≤ f) :
    parseExpr f ts = parseExpr (exprFuel ts) ts := by
  have hne : parseExpr (exprFuel ts) ts ≠ .error "fuel" := by
    rw [exprFuel]
    exact (parse_fuel_enough ts.length).2.2.2.2 ts le_rfl
  exact parseExpr_stable h hne

/-- `parse` (and hence `compile`) never reports fuel exhaustion: every error
it returns is one of the genuine parse errors of expr.rs. -/
theorem parse_no_fuel_error (ts : List Token) : parse ts ≠ .error "fuel" := by
  have hne : parseExpr (exprFuel ts) ts ≠ .error "fuel" := by
    rw [exprFuel]
    exact (parse_fuel_enough ts.length).2.2.2.2 ts le_rfl
  rw [parse]
  cases hp : parseExpr (exprFuel ts) ts with
  | error err =>
    intro hc
    exact hne (by rw [hp, Except.error.inj hc])
  | ok p =>
    obtain ⟨e, rest⟩ := p
    cases rest with
    | nil => exact fun hc => Except.noConfusion hc
    | cons tk rest2 => simp

end MoldSpec
